import Mathlib

/-!
Shallow embedding of the trajectory-evaluation core of the repository
(`src/eval.py` and the graph loader of `src/utils.py`), together with proofs
settling the behavioural claims about it.

Modelling conventions:
* Python floats are idealised as `ℚ` inside the scorer (all scorer control
  flow compares and adds distance values; no float-specific behaviour is
  claimed).  The graph loader's Euclidean edge weights live in `ℝ`, supplied
  through an explicit distance-function parameter so that the loader itself
  stays executable.
* Fallible Python operations (dict lookup, list indexing, `assert`,
  division by zero) are modelled with `Except ScoreErr` in source order.
* An instruction id `"<path_id>_<k>"` is modelled as the pair
  `(path_id, k) : Nat × Nat`; the Python round trip
  `int(instr_id.split('_')[0])` is the first projection.
* The diagnostic `print` statements of `eval.py` do not affect any returned
  value and are not modelled; the final `print(point_match/point_cnt)` is
  modelled only through its possible `ZeroDivisionError`.
-/

set_option allowUnsafeReducibility true
attribute [semireducible] Rat.add Rat.mul Rat.inv Rat.sub

/-- Decidable equality of `Except` values, used to evaluate concrete runs of
the embedded evaluator. -/
instance {ε α : Type} [DecidableEq ε] [DecidableEq α] : DecidableEq (Except ε α) := fun a b =>
  match a, b with
  | .error x, .error y =>
    if h : x = y then .isTrue (by rw [h]) else .isFalse (by intro hc; cases hc; exact h rfl)
  | .ok x, .ok y =>
    if h : x = y then .isTrue (by rw [h]) else .isFalse (by intro hc; cases hc; exact h rfl)
  | .error _, .ok _ => .isFalse (by intro hc; cases hc)
  | .ok _, .error _ => .isFalse (by intro hc; cases hc)

/-- One step of a submitted trajectory: `(viewpoint_id, heading_rads, elevation_rads)`.
Only the viewpoint id is ever read by the scorer. -/
structure TrajStep where
  viewpoint : String
  heading : ℚ
  elevation : ℚ
deriving DecidableEq, Repr

/-- A ground-truth record, as stored in `self.gt[item['path_id']] = item`:
the fields of the dataset item that the scorer reads. -/
structure GroundTruth where
  path_id : Nat
  scan : String
  path : List String
deriving DecidableEq, Repr

/-- Instruction id `"<path_id>_<k>"`, modelled as the pair `(path_id, k)`. -/
abbrev InstrId := Nat × Nat

/-- The evaluation state built by `Evaluation.__init__`: the active splits,
the ground-truth records, and the per-scan all-pairs distance table
`self.distances[scan][u][v]` (modelled as a total function; the benchmark
assumes full connectivity, so every looked-up pair is present). -/
structure Eval where
  splits : List String
  gtList : List GroundTruth
  distances : String → String → String → ℚ

/-- The fixed success threshold `self.error_margin = 3.0`. -/
def errorMargin : ℚ := 3

/-- Lookup in the dict `self.gt` built by repeated assignment
`self.gt[item['path_id']] = item` (a later record with the same `path_id`
overwrites an earlier one, hence the search over the reversed list). -/
def gtFind (l : List GroundTruth) (pid : Nat) : Option GroundTruth :=
  l.reverse.find? (fun g => g.path_id == pid)

/-- The expected instruction-id set `self.instr_ids`:
`'%d_%d' % (item['path_id'], i)` for `i in range(3)`, over all records,
collected into a set. -/
def expectedIds (l : List GroundTruth) : Finset InstrId :=
  l.foldl (fun s g =>
    s ∪ ({(g.path_id, 0), (g.path_id, 1), (g.path_id, 2)} : Finset InstrId)) ∅

/-- The nested step-alignment loops of `_score_item` (lines 55-63 of
`src/eval.py`): for `idx in range(len(path)-1)` and
`gt_idx in range(len(gt['path'])-1)`, increment `point_cnt` whenever
`gt['path'][gt_idx] == path[idx][0]`, and additionally `point_match` when
`gt['path'][gt_idx+1] == path[idx+1][0]`.  Indices stay in range, so the
`getD` default is never read. -/
def pointCounters (gtPath sub : List String) : Nat × Nat :=
  (List.range (sub.length - 1)).foldl (fun acc idx =>
    (List.range (gtPath.length - 1)).foldl (fun acc2 gtIdx =>
      if gtPath.getD gtIdx "" = sub.getD idx "" then
        (acc2.1 + 1,
          if gtPath.getD (gtIdx + 1) "" = sub.getD (idx + 1) "" then acc2.2 + 1
          else acc2.2)
      else acc2) acc) (0, 0)

/-- `Evaluation._get_nearest`: scan every viewpoint of the trajectory in
order, keeping the viewpoint of minimum distance to the goal (strict `<`,
so ties keep the earliest occurrence); the initial candidate is `path[0]`.
Here `d v` is `self.distances[scan][v][goal_id]`.  The `[]` case is
unreachable: the caller has already checked the trajectory is non-empty. -/
def getNearest (d : String → ℚ) : List String → String
  | [] => ""
  | hd :: tl =>
    ((hd :: tl).foldl (fun acc v => if d v < acc.2 then (v, d v) else acc)
      (hd, d hd)).1

/-- Trajectory length (lines 73-77): `distance = 0; prev = path[0];
for curr in path[1:]: distance += d prev curr; prev = curr`. -/
def pathLen (d : String → String → ℚ) : List String → ℚ
  | [] => 0
  | hd :: tl =>
    (tl.foldl (fun (acc : ℚ × String) c => (acc.1 + d acc.2 c, c)) (0, hd)).1

/-- The five values `_score_item` appends to the metric lists for one
instruction. -/
structure ItemScores where
  navError : ℚ
  oracleError : ℚ
  steps : Nat
  length : ℚ
  spl : ℚ
deriving DecidableEq, Repr

/-- The failure modes of `Evaluation.score` / `_score_item`, in the order
the corresponding Python exceptions can arise. -/
inductive ScoreErr where
  /-- `KeyError` from `self.gt[int(instr_id.split('_')[0])]`. -/
  | gtKeyError
  /-- `IndexError` reading `gt['path'][n]`. -/
  | gtPathIndex (n : Nat)
  /-- `IndexError` reading `path[0]` of the submitted trajectory. -/
  | trajIndex
  /-- the `assert start == path[0][0]` failure. -/
  | startMismatch
  /-- the coverage `assert len(instr_ids) == 0` failure, with its message. -/
  | assertCoverage (msg : String)
  /-- the `assert len(self.scores['nav_errors']) == len(self.instr_ids)` failure. -/
  | assertLength
  /-- a `ZeroDivisionError`: in the SPL expression of `_score_item`
  (lines 84-86, when `max(d(start,goal), distance) == 0`), or in the final
  rate/ratio computations of `score`. -/
  | zeroDivision
deriving DecidableEq, Repr

/-- The five metric values of `_score_item` (lines 52-97) and the two
step-alignment counters, once `gt` has been found, `start == path[0][0]`
has been asserted and `gt['path'][1]` exists.  `getLastD ""` models
Python's `[-1]`; both lists are non-empty here, so the default is never
read.  The SPL field is meaningful only behind the zero-denominator guard
of `scoreItemCore` below, which surfaces these values. -/
def scoreItemVals (E : Eval) (g : GroundTruth) (start : String)
    (path : List TrajStep) : ItemScores × Nat × Nat :=
  let vps := path.map TrajStep.viewpoint
  let goal := g.path.getLastD ""
  let cm := pointCounters g.path vps
  let final := vps.getLastD ""
  let nav := E.distances g.scan final goal
  let nearest := getNearest (fun v => E.distances g.scan v goal) vps
  let len := pathLen (E.distances g.scan) vps
  let spl :=
    if E.splits = ["test"] then 0
    else (if nav < errorMargin then (1 : ℚ) else 0) *
      E.distances g.scan start goal /
        max (E.distances g.scan start goal) len
  ({ navError := nav
     oracleError := E.distances g.scan nearest goal
     steps := path.length - 1
     length := len
     spl := spl }, cm.1, cm.2)

/-- The fallible metric tail of `_score_item`: on any non-`['test']`
evaluation, the SPL expression
`is_success * d(start, goal) / max(d(start, goal), distance)`
(lines 84-86) raises `ZeroDivisionError` when
`max(d(start, goal), distance) == 0` (on `['test']` the branch appends a
literal `0` without dividing).  In Python this error fires after the first
four metric lists have already been appended to; since it aborts `score`
before any summary can be produced, the atomic `Except` model — which
surfaces no metrics on error — agrees with the program on every observable
outcome of `score`. -/
def scoreItemCore (E : Eval) (g : GroundTruth) (start : String)
    (path : List TrajStep) : Except ScoreErr (ItemScores × Nat × Nat) :=
  if E.splits ≠ ["test"] ∧
      max (E.distances g.scan start (g.path.getLastD ""))
        (pathLen (E.distances g.scan) (path.map TrajStep.viewpoint)) = 0 then
    .error .zeroDivision
  else .ok (scoreItemVals E g start path)

/-- `Evaluation._score_item` with its fallible prefix in source order:
lookup `self.gt[...]` (`KeyError`), read `gt['path'][0]` (`IndexError`),
read `path[0][0]` (`IndexError`), `assert start == path[0][0]`, read
`first_step = gt['path'][1]` (`IndexError`; the value itself is never used),
then the metric computation, whose SPL division can itself raise
`ZeroDivisionError` (see `scoreItemCore`). -/
def scoreItem (E : Eval) (id : InstrId) (path : List TrajStep) :
    Except ScoreErr (ItemScores × Nat × Nat) :=
  match gtFind E.gtList id.1 with
  | none => .error .gtKeyError
  | some g =>
    match g.path.get? 0 with
    | none => .error (.gtPathIndex 0)
    | some start =>
      match path.get? 0 with
      | none => .error .trajIndex
      | some t0 =>
        if start = t0.viewpoint then
          match g.path.get? 1 with
          | none => .error (.gtPathIndex 1)
          | some _ => scoreItemCore E g start path
        else .error .startMismatch

/-- The five accumulated metric lists of `self.scores` (a
`defaultdict(list)` in the source). -/
structure Scores where
  nav_errors : List ℚ
  oracle_errors : List ℚ
  trajectory_steps : List Nat
  trajectory_lengths : List ℚ
  success_path_length : List ℚ
deriving DecidableEq, Repr

/-- The empty `defaultdict(list)` created at the top of `score`. -/
def Scores.empty : Scores := ⟨[], [], [], [], []⟩

/-- One `_score_item` call's appends to the five metric lists. -/
def Scores.push (sc : Scores) (it : ItemScores) : Scores :=
  { nav_errors := sc.nav_errors ++ [it.navError]
    oracle_errors := sc.oracle_errors ++ [it.oracleError]
    trajectory_steps := sc.trajectory_steps ++ [it.steps]
    trajectory_lengths := sc.trajectory_lengths ++ [it.length]
    success_path_length := sc.success_path_length ++ [it.spl] }

/-- One entry of the submission file: `{'instr_id': ..., 'trajectory': ...}`. -/
structure Entry where
  instr_id : InstrId
  trajectory : List TrajStep
deriving DecidableEq, Repr

/-- The summary record returned by `Evaluation.score`. -/
structure Summary where
  nav_error : ℚ
  oracle_error : ℚ
  steps : ℚ
  lengths : ℚ
  spl : ℚ
  success_rate : ℚ
  oracle_rate : ℚ
deriving DecidableEq, Repr

/-- `np.average` of a list of rationals (the mean; the `nan` that numpy
returns on an empty list is irrelevant here because an empty run fails with
`ZeroDivisionError` before the summary is returned). -/
def avgQ (l : List ℚ) : ℚ := l.sum / (l.length : ℚ)

/-- `np.average` of the (integer) step counts. -/
def avgN (l : List Nat) : ℚ := ((l.map (fun n => (n : ℚ))).sum) / (l.length : ℚ)

/-- The submission loop of `Evaluation.score` (lines 106-112): walk the
submission entries in file order; an entry whose id is still in the
remaining expected set is scored (and its id removed), any other entry is
ignored. -/
def scoreLoop (E : Eval) :
    List Entry → Finset InstrId → Scores → Nat → Nat →
      Except ScoreErr (Finset InstrId × Scores × Nat × Nat)
  | [], rem, sc, pc, pm => .ok (rem, sc, pc, pm)
  | e :: rest, rem, sc, pc, pm =>
    if e.instr_id ∈ rem then
      match scoreItem E e.instr_id e.trajectory with
      | .error err => .error err
      | .ok (it, c1, c2) =>
          scoreLoop E rest (rem.erase e.instr_id) (sc.push it) (pc + c1) (pm + c2)
    else scoreLoop E rest rem sc pc pm

/-- The exact message of the coverage assertion:
`'Missing %d of %d instruction ids from %s - not in %s'`. -/
def coverageMsg (k n : Nat) (splits : List String) (output_file : String) : String :=
  "Missing " ++ toString k ++ " of " ++ toString n ++
    " instruction ids from " ++ String.intercalate "," splits ++
    " - not in " ++ output_file

/-- The tail of `Evaluation.score` after the submission loop (lines
113-128): assert full coverage of the expected ids (with the exact message
of the source), assert the length of the accumulated `nav_errors` list,
then build the summary; the success-rate, oracle-rate and
single-step-accuracy divisions raise `ZeroDivisionError` when their
denominators are zero. -/
def scoreFinish (E : Eval) (output_file : String) (rem : Finset InstrId)
    (sc : Scores) (pc : Nat) : Except ScoreErr (Summary × Scores) :=
  if rem.card = 0 then
    if sc.nav_errors.length = (expectedIds E.gtList).card then
      if sc.nav_errors.length = 0 then .error .zeroDivision
      else if sc.oracle_errors.length = 0 then .error .zeroDivision
      else if pc = 0 then .error .zeroDivision
      else
        .ok ({ nav_error := avgQ sc.nav_errors
               oracle_error := avgQ sc.oracle_errors
               steps := avgN sc.trajectory_steps
               lengths := avgQ sc.trajectory_lengths
               spl := avgQ sc.success_path_length
               success_rate :=
                 ((sc.nav_errors.filter (fun i => i < errorMargin)).length : ℚ) /
                   (sc.nav_errors.length : ℚ)
               oracle_rate :=
                 ((sc.oracle_errors.filter (fun i => i < errorMargin)).length : ℚ) /
                   (sc.oracle_errors.length : ℚ) }, sc)
    else .error .assertLength
  else .error (.assertCoverage
    (coverageMsg rem.card (expectedIds E.gtList).card E.splits output_file))

/-- `Evaluation.score` (lines 99-128): run the submission loop over the
expected-id set, then validate and summarise. -/
def score (E : Eval) (submission : List Entry) (output_file : String) :
    Except ScoreErr (Summary × Scores) :=
  match scoreLoop E submission (expectedIds E.gtList) Scores.empty 0 0 with
  | .error e => .error e
  | .ok (rem, sc, pc, _pm) => scoreFinish E output_file rem sc pc


/-!  The graph loader (`load_nav_graphs`, `src/utils.py` lines 33-58) and the
all-pairs shortest-path distance tables computed from its output graphs
(`src/eval.py` lines 32-34). -/

/-- One record of a connectivity file: the fields that `load_nav_graphs`
reads.  The 16-element row-major pose array is modelled as `Fin 16 → ℝ`
(its translation components sit at offsets 3, 7, 11). -/
structure ConnRecord where
  image_id : String
  included : Bool
  unobstructed : List Bool
  pose : Fin 16 → ℝ

/-- An edge added to the `networkx` graph: `(image_id_i, image_id_j, weight)`. -/
abbrev NavEdge := String × String × ℝ

/-- The inner loop of `load_nav_graphs`:
`for j, conn in enumerate(item['unobstructed'])`.  The weight function is a
parameter (instantiated with the Euclidean pose distance in the theorems)
so that the loader itself stays executable.  `data[j]` out of range is
Python's `IndexError`; a one-sided `unobstructed` relation is the
`assert data[j]['unobstructed'][i], 'Graph should be undirected'` failure.
The node-position bookkeeping (`positions[...]`, `set_node_attributes`)
only attaches attributes and is not modelled. -/
def loadInner (dist : ConnRecord → ConnRecord → ℝ) (data : List ConnRecord)
    (i : Nat) (item : ConnRecord) :
    List (Nat × Bool) → List NavEdge → Except String (List NavEdge)
  | [], es => .ok es
  | (j, conn) :: rest, es =>
    if conn then
      match data.get? j with
      | none => .error "list index out of range"
      | some dj =>
        if dj.included then
          if dj.unobstructed.getD i false then
            loadInner dist data i item rest
              (es ++ [(item.image_id, dj.image_id, dist item dj)])
          else .error "Graph should be undirected"
        else loadInner dist data i item rest es
    else loadInner dist data i item rest es

/-- The outer loop of `load_nav_graphs`: `for i, item in enumerate(data)`,
skipping records that are not `included`. -/
def loadOuter (dist : ConnRecord → ConnRecord → ℝ) (data : List ConnRecord) :
    List (Nat × ConnRecord) → List NavEdge → Except String (List NavEdge)
  | [], es => .ok es
  | (i, item) :: rest, es =>
    if item.included then
      match loadInner dist data i item item.unobstructed.enum es with
      | .error e => .error e
      | .ok es2 => loadOuter dist data rest es2
    else loadOuter dist data rest es

/-- `load_nav_graphs` for a single scan: the sequence of `G.add_edge` calls
performed on the connectivity records of that scan (the graph is the
undirected graph generated by these edges). -/
def load_nav_graph (dist : ConnRecord → ConnRecord → ℝ) (data : List ConnRecord) :
    Except String (List NavEdge) :=
  loadOuter dist data data.enum []

/-- The node set of the resulting `networkx` graph: `add_edge` creates both
endpoints of every added edge. -/
def nodesOf (es : List NavEdge) : List String :=
  es.flatMap (fun e => [e.1, e.2.1])

/-- The weight lookup of the undirected graph generated by the added edges:
the weight attached to the unordered pair `{a, b}`, if an edge between them
was added in either orientation. -/
def edgeWeight {α : Type} (es : List (String × String × α)) (a b : String) :
    Option α :=
  (es.find? (fun e => (e.1 == a && e.2.1 == b) || (e.1 == b && e.2.1 == a))).map
    (fun e => e.2.2)

/-- Cost of walking a vertex list: the sum of the edge weights of its
consecutive pairs, `none` if some consecutive pair has no edge (or the list
is empty). -/
def pathCost {α : Type} [LinearOrderedAddCommMonoid α]
    (w : String → String → Option α) : List String → Option α
  | [] => none
  | [_] => some 0
  | a :: b :: rest =>
    match w a b, pathCost w (b :: rest) with
    | some c, some r => some (c + r)
    | _, _ => none

/-- All insertions of an element into a list (an executable building block
for the permutation enumeration below). -/
def inserts {α : Type} (a : α) : List α → List (List α)
  | [] => [[a]]
  | b :: l => (a :: b :: l) :: (inserts a l).map (fun q => b :: q)

/-- All permutations of a list, by structural recursion (kernel-evaluable,
unlike `List.permutations`). -/
def perms {α : Type} : List α → List (List α)
  | [] => [[]]
  | a :: l => (perms l).flatMap (inserts a)

/-- All duplicate-free vertex lists over the node list `ns` that start at
`a` and end at `b`: the candidate simple paths from `a` to `b`. -/
def pathsBetween (ns : List String) (a b : String) : List (List String) :=
  (ns.sublists.flatMap perms).filter
    (fun p => decide (p.head? = some a) && decide (p.getLast? = some b))

/-- Minimum of a list, `none` when empty. -/
def listMin {α : Type} [LinearOrder α] : List α → Option α
  | [] => none
  | x :: xs => some (xs.foldl min x)

/-- The shortest-path distance from `a` to `b` in the graph with node list
`ns` and weight lookup `w`: the entry `.distances[scan][a][b]` that
`nx.all_pairs_dijkstra_path_length` produces (with non-negative weights,
Dijkstra's distances are exactly the minimum cost over simple paths;
`none` models an absent dict entry for an unreachable pair). -/
def spdist {α : Type} [LinearOrderedAddCommMonoid α]
    (w : String → String → Option α) (ns : List String) (a b : String) :
    Option α :=
  listMin ((pathsBetween ns a b).filterMap (pathCost w))

/-!  Concrete inputs used to witness the theorems: a four-viewpoint square
environment `A - B - C - D - A` with unit edge weights, and small
ground-truth/submission fixtures over it. -/

/-- The all-pairs shortest-path table of the unit square graph
`A - B - C - D - A` (opposite corners are at distance 2). -/
def sqDist (a b : String) : ℚ :=
  if a = b then 0
  else if (a, b) ∈ [("A","B"), ("B","A"), ("B","C"), ("C","B"),
                    ("C","D"), ("D","C"), ("D","A"), ("A","D")] then 1
  else if (a, b) ∈ [("A","C"), ("C","A"), ("B","D"), ("D","B")] then 2
  else 0

/-- The weight lookup of the unit square graph `A - B - C - D - A` (the
graph the loader builds from four viewpoints at the corners of a unit
square), with rational weights. -/
def sqW : String → String → Option ℚ :=
  edgeWeight [("A", "B", (1 : ℚ)), ("B", "C", 1), ("C", "D", 1), ("D", "A", 1)]

/-- A trajectory step that only carries a viewpoint id. -/
def mkT (v : String) : TrajStep := ⟨v, 0, 0⟩

/-- An evaluation over the square environment whose single ground-truth
path `[A, B, C, D]` walks three sides of the square (so its length 3
exceeds the shortest start-to-goal distance 1). -/
def sqEvalLong : Eval :=
  { splits := ["val_seen"]
    gtList := [⟨7, "sq", ["A", "B", "C", "D"]⟩]
    distances := fun _ a b => sqDist a b }

/-- An evaluation over the square environment with the two-viewpoint
ground-truth path `[A, B]`. -/
def sqEvalAB : Eval :=
  { splits := ["val_seen"]
    gtList := [⟨7, "sq", ["A", "B"]⟩]
    distances := fun _ a b => sqDist a b }

/-- The trajectory `[A, B]`, matching the ground truth of `sqEvalAB`. -/
def goodT : List TrajStep := [mkT "A", mkT "B"]

/-- A trajectory starting at `B` instead of the ground-truth start `A`. -/
def badStartT : List TrajStep := [mkT "B", mkT "A"]

/-- A complete correct submission for `sqEvalAB`: each of the three
expected instruction ids exactly once. -/
def goodSub : List Entry := [⟨(7, 0), goodT⟩, ⟨(7, 1), goodT⟩, ⟨(7, 2), goodT⟩]

/-- A submission missing the expected id `7_2`. -/
def missSub : List Entry := [⟨(7, 0), goodT⟩, ⟨(7, 1), goodT⟩]

/-- A complete submission with an extra, duplicate entry for `7_0`. -/
def dupSub : List Entry :=
  [⟨(7, 0), goodT⟩, ⟨(7, 1), goodT⟩, ⟨(7, 2), goodT⟩, ⟨(7, 0), goodT⟩]

/-- A complete correct submission followed by an ignored entry (id `7_3` is
outside the expected set) whose trajectory does not start at the
ground-truth start viewpoint. -/
def ignoredBadSub : List Entry :=
  [⟨(7, 0), goodT⟩, ⟨(7, 1), goodT⟩, ⟨(7, 2), goodT⟩, ⟨(7, 3), badStartT⟩]

/-- An evaluation whose ground-truth path is stationary (`["A", "A"]`):
start and goal coincide, so both the start-to-goal distance and the length
of an exactly-matching trajectory are zero. -/
def stationaryEval : Eval :=
  { splits := ["val_seen"]
    gtList := [⟨5, "sq", ["A", "A"]⟩]
    distances := fun _ a b => sqDist a b }

/-- An evaluation whose ground-truth path has a single viewpoint. -/
def singletonEval : Eval :=
  { splits := ["val_seen"]
    gtList := [⟨9, "sq", ["A"]⟩]
    distances := fun _ a b => sqDist a b }

/-- Connectivity record for viewpoint `A` of the two-viewpoint witness
environment: at the origin, mutually unobstructed with `B`. -/
def connA : ConnRecord :=
  { image_id := "A", included := true, unobstructed := [false, true]
    pose := fun _ => 0 }

/-- Connectivity record for viewpoint `B`: at distance 1 along the x-axis,
mutually unobstructed with `A`. -/
def connB : ConnRecord :=
  { image_id := "B", included := true, unobstructed := [true, false]
    pose := fun k => if k = (3 : Fin 16) then 1 else 0 }

/-- A variant of `connB` whose `unobstructed` row denies the reverse
direction of the edge `A → B`. -/
def connBbad : ConnRecord :=
  { image_id := "B", included := true, unobstructed := [false, false]
    pose := fun k => if k = (3 : Fin 16) then 1 else 0 }

/-- The Euclidean pose distance of `load_nav_graphs`
(`((pose1[3]-pose2[3])**2 + (pose1[7]-pose2[7])**2 + (pose1[11]-pose2[11])**2)**0.5`),
used to instantiate the loader's weight parameter. -/
noncomputable def euDist (r s : ConnRecord) : ℝ :=
  Real.sqrt ((r.pose 3 - s.pose 3) ^ 2 + (r.pose 7 - s.pose 7) ^ 2 +
    (r.pose 11 - s.pose 11) ^ 2)

/-- The set of instruction ids occurring in a submission. -/
def subIds (l : List Entry) : Finset InstrId :=
  (l.map Entry.instr_id).toFinset

/-- Boolean leading-segment test on character lists. -/
def leadsWith : List Char → List Char → Bool
  | [], _ => true
  | _ :: _, [] => false
  | a :: as, b :: bs => a == b && leadsWith as bs

/-- Boolean contiguous-substring test on character lists, used to state
facts about error-message contents. -/
def containsSub (needle : List Char) : List Char → Bool
  | [] => needle.isEmpty
  | c :: rest => leadsWith needle (c :: rest) || containsSub needle rest

/-!  Basic inversion lemmas for `scoreItem`. -/

/-- Unfolding lemma: when every fallible prefix step of `_score_item`
succeeds, the result is that of the metric tail. -/
theorem scoreItem_eq_ok_core {E : Eval} {id : InstrId} {path : List TrajStep}
    {g : GroundTruth} {start : String} {t0 : TrajStep} {fs : String}
    (hg : gtFind E.gtList id.1 = some g) (h0 : g.path.get? 0 = some start)
    (ht : path.get? 0 = some t0) (hs : start = t0.viewpoint)
    (h1 : g.path.get? 1 = some fs) :
    scoreItem E id path = scoreItemCore E g start path := by
  simp only [scoreItem, hg, h0, ht, h1, if_pos hs]

/-- Inversion: a successful `_score_item` call determines the ground-truth
record, the start viewpoint and the result. -/
theorem scoreItem_ok_inv {E : Eval} {id : InstrId} {path : List TrajStep}
    {r : ItemScores × Nat × Nat} (h : scoreItem E id path = .ok r) :
    ∃ g start t0, gtFind E.gtList id.1 = some g ∧
      g.path.get? 0 = some start ∧ path.get? 0 = some t0 ∧
      start = t0.viewpoint ∧ (∃ fs, g.path.get? 1 = some fs) ∧
      scoreItemCore E g start path = .ok r := by
  unfold scoreItem at h
  split at h
  · exact absurd h (by simp)
  next g hg =>
    split at h
    · exact absurd h (by simp)
    next start h0 =>
      split at h
      · exact absurd h (by simp)
      next t0 ht =>
        split at h
        next hs =>
          split at h
          · exact absurd h (by simp)
          next fs h1 =>
            exact ⟨g, start, t0, hg, h0, ht, hs, ⟨fs, h1⟩, h⟩
        · exact absurd h (by simp)

/-- Inversion for the metric tail: a successful `scoreItemCore` carries the
pure metric values and certifies that the SPL denominator guard held. -/
theorem scoreItemCore_ok_inv {E : Eval} {g : GroundTruth} {start : String}
    {path : List TrajStep} {r : ItemScores × Nat × Nat}
    (h : scoreItemCore E g start path = .ok r) :
    r = scoreItemVals E g start path ∧
      (E.splits = ["test"] ∨
        max (E.distances g.scan start (g.path.getLastD ""))
          (pathLen (E.distances g.scan) (path.map TrajStep.viewpoint)) ≠ 0) := by
  unfold scoreItemCore at h
  split at h
  · exact absurd h (by simp)
  next hcond =>
    push_neg at hcond
    injection h with h2
    refine ⟨h2.symm, ?_⟩
    by_cases hts : E.splits = ["test"]
    · exact Or.inl hts
    · exact Or.inr (hcond hts)

/-!  The oracle (nearest-point) scan. -/

/-- Invariant of the `_get_nearest` fold: the tracked distance is the
distance of the tracked viewpoint, it never increases, and it is a lower
bound for the distance of every scanned viewpoint. -/
theorem getNearest_fold_spec (d : String → ℚ) (l : List String) :
    ∀ acc : String × ℚ, acc.2 = d acc.1 →
      (l.foldl (fun acc v => if d v < acc.2 then (v, d v) else acc) acc).2 =
        d (l.foldl (fun acc v => if d v < acc.2 then (v, d v) else acc) acc).1 ∧
      (l.foldl (fun acc v => if d v < acc.2 then (v, d v) else acc) acc).2 ≤ acc.2 ∧
      ∀ v ∈ l,
        (l.foldl (fun acc v => if d v < acc.2 then (v, d v) else acc) acc).2 ≤ d v := by
  induction l with
  | nil => intro acc hacc; exact ⟨hacc, le_refl _, by simp⟩
  | cons x xs ih =>
    intro acc hacc
    simp only [List.foldl_cons]
    by_cases hx : d x < acc.2
    · rw [if_pos hx]
      rcases ih (x, d x) rfl with ⟨h1, h2, h3⟩
      refine ⟨h1, le_trans h2 (le_of_lt hx), ?_⟩
      intro v hv
      rcases List.mem_cons.1 hv with hv | hv
      · subst hv; exact h2
      · exact h3 v hv
    · rw [if_neg hx]
      rcases ih acc hacc with ⟨h1, h2, h3⟩
      refine ⟨h1, h2, ?_⟩
      intro v hv
      rcases List.mem_cons.1 hv with hv | hv
      · subst hv; exact le_trans h2 (le_of_not_lt hx)
      · exact h3 v hv

/-- The distance of the viewpoint `_get_nearest` returns is a lower bound
for the distance of every viewpoint of the (non-empty) trajectory. -/
theorem getNearest_le (d : String → ℚ) (hd : String) (tl : List String) :
    ∀ v ∈ hd :: tl, d (getNearest d (hd :: tl)) ≤ d v := by
  intro v hv
  have h := getNearest_fold_spec d (hd :: tl) (hd, d hd) rfl
  rw [getNearest]
  rw [← h.1]
  exact h.2.2 v hv

/-- A non-empty list's `getLastD` is a member. -/
theorem getLastD_mem {α : Type} (l : List α) (a : α) (h : l ≠ []) :
    l.getLastD a ∈ l := by
  rw [List.getLastD_eq_getLast? , List.getLast?_eq_getLast l h]
  simp only [Option.getD_some]
  exact List.getLast_mem h

/-- C5: For every non-empty submitted trajectory (and every trajectory
`_score_item` scores is non-empty), the oracle error — the minimum over all
visited viewpoints of the environment distance to the goal, with the first
trajectory viewpoint as initial candidate — is less than or equal to the
navigation error, the environment distance from the final visited viewpoint
to the goal. -/
theorem oracle_error_le_nav_error {E : Eval} {id : InstrId}
    {path : List TrajStep} {r : ItemScores} {c m : Nat}
    (h : scoreItem E id path = .ok (r, c, m)) : r.oracleError ≤ r.navError := by
  rcases scoreItem_ok_inv h with ⟨g, start, t0, hg, h0, ht, hs, ⟨fs, h1⟩, hr⟩
  have hv := (scoreItemCore_ok_inv hr).1
  have hr1 : r = (scoreItemVals E g start path).1 := by rw [← hv]
  have hne : path.map TrajStep.viewpoint ≠ [] := by
    cases path with
    | nil => simp at ht
    | cons a l => simp
  subst hr1
  simp only [scoreItemVals]
  cases hvps : path.map TrajStep.viewpoint with
  | nil => exact absurd hvps hne
  | cons hd tl =>
    exact getNearest_le (fun v => E.distances g.scan v (g.path.getLastD ""))
      hd tl _ (getLastD_mem (hd :: tl) "" (by simp))

/-- C5 witness: a concrete scored trajectory on the square environment. -/
theorem oracle_error_le_nav_error_witness :
    scoreItem sqEvalLong (7, 0) [mkT "A", mkT "B", mkT "C", mkT "D"] =
      .ok (⟨0, 0, 3, 3, 1/3⟩, 3, 3) ∧ (0 : ℚ) ≤ (0 : ℚ) :=
  ⟨by decide,
    @oracle_error_le_nav_error sqEvalLong (7, 0)
      [mkT "A", mkT "B", mkT "C", mkT "D"] ⟨0, 0, 3, 3, 1/3⟩ 3 3 (by decide)⟩

/-- C10: When the ground-truth record of a submission entry has a
single-viewpoint path, `_score_item` fails with the index error raised
while reading the path's second element (`first_step = gt['path'][1]`),
even when the submitted trajectory is non-empty and starts at the correct
viewpoint; the error is raised before any metric is appended (in this
model, an erroneous `_score_item` produces no `ItemScores` at all). -/
theorem singleton_gt_path_index_error {E : Eval} {id : InstrId}
    {path : List TrajStep} {g : GroundTruth} {v : String} {t0 : TrajStep}
    (hg : gtFind E.gtList id.1 = some g) (hp : g.path = [v])
    (ht : path.get? 0 = some t0) (hv : t0.viewpoint = v) :
    scoreItem E id path = .error (.gtPathIndex 1) := by
  unfold scoreItem
  rw [hg]
  simp only [hp, ht]
  simp [hv]

/-- C10 witness: a concrete entry whose ground-truth path is `["A"]`. -/
theorem singleton_gt_path_index_error_witness :
    scoreItem singletonEval (9, 0) [mkT "A", mkT "B"] =
      .error (.gtPathIndex 1) :=
  @singleton_gt_path_index_error singletonEval (9, 0) [mkT "A", mkT "B"]
    ⟨9, "sq", ["A"]⟩ "A" (mkT "A") (by decide) (by decide) (by decide) (by decide)

/-- C4: For every scored instruction, when the active splits are exactly the
held-out `["test"]` split the appended SPL value is 0; for every other
choice of active splits the appended SPL equals the success indicator times
the shortest-path distance from the ground-truth start to the goal, divided
by the maximum of that distance and the actual trajectory length. -/
theorem spl_policy {E : Eval} {id : InstrId} {path : List TrajStep}
    {g : GroundTruth} {r : ItemScores} {c m : Nat}
    (hg : gtFind E.gtList id.1 = some g)
    (h : scoreItem E id path = .ok (r, c, m)) :
    (E.splits = ["test"] → r.spl = 0) ∧
    (E.splits ≠ ["test"] →
      r.spl = (if r.navError < errorMargin then (1 : ℚ) else 0) *
        E.distances g.scan (g.path.headD "") (g.path.getLastD "") /
          max (E.distances g.scan (g.path.headD "") (g.path.getLastD "")) r.length) := by
  rcases scoreItem_ok_inv h with ⟨g', start, t0, hg', h0, ht, hs, ⟨fs, h1⟩, hr⟩
  rw [hg] at hg'
  injection hg' with hgg
  subst hgg
  have hstart : g.path.headD "" = start := by
    cases hp : g.path with
    | nil => rw [hp] at h0; simp at h0
    | cons a l => rw [hp] at h0; simp at h0; simp [h0]
  have hv := (scoreItemCore_ok_inv hr).1
  have hr1 : r = (scoreItemVals E g start path).1 := by rw [← hv]
  subst hr1
  rw [hstart]
  simp only [scoreItemVals]
  constructor
  · intro hts; simp [hts]
  · intro hts; simp [hts]

/-- C4 witness: on the square environment with splits `["val_seen"]`, the
SPL appended for the trajectory `[A, B, C, D]` is given by the formula. -/
theorem spl_policy_witness :
    gtFind sqEvalLong.gtList 7 = some ⟨7, "sq", ["A", "B", "C", "D"]⟩ ∧
    scoreItem sqEvalLong (7, 0) [mkT "A", mkT "B", mkT "C", mkT "D"] =
      .ok (⟨0, 0, 3, 3, 1/3⟩, 3, 3) ∧
    ((sqEvalLong.splits = ["test"] → (⟨0, 0, 3, 3, (1:ℚ)/3⟩ : ItemScores).spl = 0) ∧
     (sqEvalLong.splits ≠ ["test"] →
      (⟨0, 0, 3, 3, (1:ℚ)/3⟩ : ItemScores).spl =
        (if (⟨0, 0, 3, 3, (1:ℚ)/3⟩ : ItemScores).navError < errorMargin then (1 : ℚ) else 0) *
          sqEvalLong.distances "sq" "A" "D" /
            max (sqEvalLong.distances "sq" "A" "D")
              (⟨0, 0, 3, 3, (1:ℚ)/3⟩ : ItemScores).length)) :=
  ⟨by decide, by decide,
    @spl_policy sqEvalLong (7, 0) [mkT "A", mkT "B", mkT "C", mkT "D"]
      ⟨7, "sq", ["A", "B", "C", "D"]⟩ ⟨0, 0, 3, 3, 1/3⟩ 3 3 (by decide) (by decide)⟩

/-!  The trajectory-length accumulation. -/

/-- The length fold of `_score_item` computes the sum of consecutive-pair
distances. -/
theorem pathLen_fold (d : String → String → ℚ) :
    ∀ (l : List String) (c : ℚ) (p : String),
      (l.foldl (fun (acc : ℚ × String) x => (acc.1 + d acc.2 x, x)) (c, p)).1 =
        c + (((p :: l).zip l).map (fun q => d q.1 q.2)).sum := by
  intro l
  induction l with
  | nil => intro c p; simp
  | cons x xs ih =>
    intro c p
    simp only [List.foldl_cons, List.zip_cons_cons, List.map_cons, List.sum_cons]
    rw [ih (c + d p x) x, add_assoc]

/-- `pathLen` is the sum of the distances between consecutive viewpoints. -/
theorem pathLen_eq (d : String → String → ℚ) (l : List String) :
    pathLen d l = ((l.zip l.tail).map (fun q => d q.1 q.2)).sum := by
  cases l with
  | nil => simp [pathLen]
  | cons hd tl => rw [pathLen, pathLen_fold, zero_add]; rfl

/-- C1 (amended): for every ground-truth record and submitted trajectory
whose sequence of visited viewpoint ids equals the ground-truth path
exactly, over a distance table with zero diagonal and non-negative entries
(as every shortest-path table has), the scorer produces navigation error 0,
oracle error 0, success, trajectory length equal to the sum of environment
distances between consecutive ground-truth viewpoints, and — outside the
test-only split, provided the start-to-goal table distance and that
trajectory length are not both zero (otherwise the SPL division raises
`ZeroDivisionError` and no SPL is appended) — SPL equal to the table's
start-to-goal distance divided by the maximum of that distance and the
trajectory length (which is 1 exactly when the ground-truth path realises
the start-to-goal table distance, but strictly less than 1 when the
ground-truth path is longer than the shortest path). -/
theorem exact_match_metrics {E : Eval} {id : InstrId} {path : List TrajStep}
    {g : GroundTruth}
    (hg : gtFind E.gtList id.1 = some g)
    (hd0 : ∀ x, E.distances g.scan x x = 0)
    (hnn : ∀ x y, 0 ≤ E.distances g.scan x y)
    (hlen : 2 ≤ g.path.length)
    (htraj : path.map TrajStep.viewpoint = g.path)
    (hsplit : E.splits ≠ ["test"])
    (hden : max (E.distances g.scan (g.path.headD "") (g.path.getLastD ""))
      (((g.path.zip g.path.tail).map (fun q => E.distances g.scan q.1 q.2)).sum) ≠ 0) :
    ∃ r c m, scoreItem E id path = .ok (r, c, m) ∧
      r.navError = 0 ∧ r.oracleError = 0 ∧ r.navError < errorMargin ∧
      r.length =
        ((g.path.zip g.path.tail).map (fun q => E.distances g.scan q.1 q.2)).sum ∧
      r.spl = E.distances g.scan (g.path.headD "") (g.path.getLastD "") /
        max (E.distances g.scan (g.path.headD "") (g.path.getLastD "")) r.length := by
  have hne : g.path ≠ [] := by
    intro hnil; rw [hnil] at hlen; simp at hlen
  obtain ⟨s, rest, hp⟩ := List.exists_cons_of_ne_nil hne
  have hrne : rest ≠ [] := by
    intro hnil; rw [hp, hnil] at hlen; simp at hlen
  obtain ⟨fs, rest2, hrest⟩ := List.exists_cons_of_ne_nil hrne
  have hpne : path ≠ [] := by
    intro hnil; rw [hnil] at htraj; rw [hp] at htraj; simp at htraj
  obtain ⟨t0, ptl, hpath⟩ := List.exists_cons_of_ne_nil hpne
  have h0 : g.path.get? 0 = some s := by rw [hp]; rfl
  have h1 : g.path.get? 1 = some fs := by rw [hp, hrest]; rfl
  have ht : path.get? 0 = some t0 := by rw [hpath]; rfl
  have htv1 : t0.viewpoint = s := by
    have h := htraj
    rw [hpath, hp] at h
    simp only [List.map_cons, List.cons.injEq] at h
    exact h.1
  have hok : scoreItem E id path = scoreItemCore E g s path :=
    scoreItem_eq_ok_core hg h0 ht htv1.symm h1
  have hhead : g.path.headD "" = s := by rw [hp]; rfl
  have hden2 : ¬(E.splits ≠ ["test"] ∧
      max (E.distances g.scan s (g.path.getLastD ""))
        (pathLen (E.distances g.scan) (path.map TrajStep.viewpoint)) = 0) := by
    rintro ⟨-, hz⟩
    rw [htraj, pathLen_eq, ← hhead] at hz
    exact hden hz
  have hcore : scoreItemCore E g s path = .ok (scoreItemVals E g s path) := by
    unfold scoreItemCore
    rw [if_neg hden2]
  refine ⟨(scoreItemVals E g s path).1, (scoreItemVals E g s path).2.1,
    (scoreItemVals E g s path).2.2, by rw [hok, hcore], ?_, ?_, ?_, ?_, ?_⟩
  · simp only [scoreItemVals, htraj]
    exact hd0 _
  · simp only [scoreItemVals, htraj]
    refine le_antisymm ?_ (hnn _ _)
    rw [hp]
    exact le_trans
      (getNearest_le (fun v => E.distances g.scan v ((s :: rest).getLastD "")) s rest _
        (getLastD_mem _ "" (by simp)))
      (le_of_eq (hd0 _))
  · simp only [scoreItemVals, htraj]
    rw [hd0, errorMargin]
    norm_num
  · simp only [scoreItemVals, htraj]
    exact pathLen_eq _ _
  · simp only [scoreItemVals, htraj]
    rw [if_neg hsplit, hd0]
    have hsucc : ((0 : ℚ) < errorMargin) := by rw [errorMargin]; norm_num
    rw [if_pos hsucc, one_mul]
    rw [hhead]

/-- C1 witness for the amended theorem: on the square environment the
ground-truth path `[A, B, C, D]`, submitted exactly, has a non-zero SPL
denominator (`max 1 3 = 3`) and yields SPL `1 / max 1 3 = 1/3`. -/
theorem exact_match_metrics_witness :
    gtFind sqEvalLong.gtList 7 = some ⟨7, "sq", ["A", "B", "C", "D"]⟩ ∧
    (∀ x, sqEvalLong.distances "sq" x x = 0) ∧
    max (sqEvalLong.distances "sq" "A" "D")
      (((["A", "B", "C", "D"] : List String).zip
        (["A", "B", "C", "D"] : List String).tail).map
          (fun q => sqEvalLong.distances "sq" q.1 q.2)).sum ≠ 0 ∧
    (∃ r c m, scoreItem sqEvalLong (7, 0) [mkT "A", mkT "B", mkT "C", mkT "D"] =
      .ok (r, c, m) ∧
      r.navError = 0 ∧ r.oracleError = 0 ∧ r.navError < errorMargin ∧
      r.length = (((["A", "B", "C", "D"] : List String).zip
        (["A", "B", "C", "D"] : List String).tail).map
          (fun q => sqEvalLong.distances "sq" q.1 q.2)).sum ∧
      r.spl = sqEvalLong.distances "sq" "A" "D" /
        max (sqEvalLong.distances "sq" "A" "D") r.length) :=
  ⟨by decide, fun x => by simp [sqEvalLong, sqDist], by decide,
    @exact_match_metrics sqEvalLong (7, 0) [mkT "A", mkT "B", mkT "C", mkT "D"]
      ⟨7, "sq", ["A", "B", "C", "D"]⟩ (by decide)
      (fun x => by simp [sqEvalLong, sqDist]) (fun x y => by
        simp only [sqEvalLong, sqDist]
        split
        · exact le_refl 0
        · split
          · norm_num
          · split
            · norm_num
            · exact le_refl 0)
      (by decide) (by decide) (by decide) (by decide)⟩

/-- C1 counterexample: the claim's "SPL exactly 1.0" fails on the square
environment: the ground-truth path `[A, B, C, D]` (length 3) does not
realise the shortest `A`-to-`D` distance (1), so the exactly-matching
submission receives SPL `1/3`. -/
theorem exact_match_spl_counterexample :
    ([mkT "A", mkT "B", mkT "C", mkT "D"].map TrajStep.viewpoint =
      (⟨7, "sq", ["A", "B", "C", "D"]⟩ : GroundTruth).path) ∧
    sqEvalLong.splits ≠ ["test"] ∧
    gtFind sqEvalLong.gtList 7 = some ⟨7, "sq", ["A", "B", "C", "D"]⟩ ∧
    scoreItem sqEvalLong (7, 0) [mkT "A", mkT "B", mkT "C", mkT "D"] =
      .ok (⟨0, 0, 3, 3, 1/3⟩, 3, 3) ∧
    ((1 : ℚ)/3 ≠ 1) :=
  ⟨by decide, by decide, by decide, by decide, by decide⟩

/-!  The step-alignment counters. -/

/-- The inner counting fold over `List.range n` adds, to each component,
the number of indices satisfying the respective condition. -/
theorem foldl_range_count2 (P Q : Nat → Prop) [DecidablePred P] [DecidablePred Q] :
    ∀ (n : Nat) (acc : Nat × Nat),
      (List.range n).foldl
          (fun a j => if P j then (a.1 + 1, if Q j then a.2 + 1 else a.2) else a) acc =
        (acc.1 + ∑ j ∈ Finset.range n, if P j then 1 else 0,
         acc.2 + ∑ j ∈ Finset.range n, if P j ∧ Q j then 1 else 0) := by
  intro n
  induction n with
  | zero => intro acc; simp
  | succ k ih =>
    intro acc
    rw [List.range_succ, List.foldl_append]
    rw [ih acc]
    simp only [List.foldl_cons, List.foldl_nil, Finset.sum_range_succ]
    by_cases hP : P k
    · rw [if_pos hP]
      by_cases hQ : Q k
      · rw [if_pos hQ, if_pos hP, if_pos ⟨hP, hQ⟩]
        simp [add_assoc]
      · rw [if_neg hQ, if_pos hP, if_neg (fun hc => hQ hc.2)]
        simp [add_assoc]
    · rw [if_neg hP, if_neg hP, if_neg (fun hc => hP hc.1)]
      simp

/-- The outer fold over `List.range n`, whose step adds `C i` and `M i` to
the two accumulator components, computes the corresponding sums. -/
theorem foldl_range_addpair (C M : Nat → Nat) :
    ∀ (n : Nat) (acc : Nat × Nat),
      (List.range n).foldl (fun a i => (a.1 + C i, a.2 + M i)) acc =
        (acc.1 + ∑ i ∈ Finset.range n, C i, acc.2 + ∑ i ∈ Finset.range n, M i) := by
  intro n
  induction n with
  | zero => intro acc; simp
  | succ k ih =>
    intro acc
    rw [List.range_succ, List.foldl_append, ih acc]
    simp only [List.foldl_cons, List.foldl_nil, Finset.sum_range_succ]
    simp [add_assoc]

/-- The two `pointCounters` components as double sums over the index
ranges. -/
theorem pointCounters_eq_sum (gtPath sub : List String) :
    pointCounters gtPath sub =
      (∑ i ∈ Finset.range (sub.length - 1), ∑ j ∈ Finset.range (gtPath.length - 1),
          if gtPath.getD j "" = sub.getD i "" then 1 else 0,
       ∑ i ∈ Finset.range (sub.length - 1), ∑ j ∈ Finset.range (gtPath.length - 1),
          if gtPath.getD j "" = sub.getD i "" ∧
              gtPath.getD (j + 1) "" = sub.getD (i + 1) "" then 1 else 0) := by
  rw [pointCounters]
  have hfun : (fun (acc : Nat × Nat) idx =>
      (List.range (gtPath.length - 1)).foldl (fun acc2 gtIdx =>
        if gtPath.getD gtIdx "" = sub.getD idx "" then
          (acc2.1 + 1,
            if gtPath.getD (gtIdx + 1) "" = sub.getD (idx + 1) "" then acc2.2 + 1
            else acc2.2)
        else acc2) acc) =
      (fun (acc : Nat × Nat) idx =>
        (acc.1 + ∑ j ∈ Finset.range (gtPath.length - 1),
            if gtPath.getD j "" = sub.getD idx "" then 1 else 0,
         acc.2 + ∑ j ∈ Finset.range (gtPath.length - 1),
            if gtPath.getD j "" = sub.getD idx "" ∧
                gtPath.getD (j + 1) "" = sub.getD (idx + 1) "" then 1 else 0)) := by
    funext acc idx
    exact foldl_range_count2 _ _ _ acc
  rw [hfun, foldl_range_addpair]
  simp

/-- C6: The candidate counter increments once for every pair (submission
index excluding the last, ground-truth index excluding the last) at which
the submitted viewpoint equals the ground-truth viewpoint — each repeated
occurrence counted independently, with no deduplication — and the matched
counter additionally requires the very next submitted viewpoint to equal
the very next ground-truth viewpoint; in particular for ground truth
`[A, B, C]` and submission `[A, B, D, C]` the counters are `(2, 1)`, the
candidate count contributed by viewpoint `A` is 1, and that occurrence is
matched. -/
theorem step_alignment_counters :
    (∀ gtPath sub : List String,
      (pointCounters gtPath sub).1 =
        ((Finset.range (sub.length - 1) ×ˢ Finset.range (gtPath.length - 1)).filter
          (fun p => gtPath.getD p.2 "" = sub.getD p.1 "")).card ∧
      (pointCounters gtPath sub).2 =
        ((Finset.range (sub.length - 1) ×ˢ Finset.range (gtPath.length - 1)).filter
          (fun p => gtPath.getD p.2 "" = sub.getD p.1 "" ∧
            gtPath.getD (p.2 + 1) "" = sub.getD (p.1 + 1) "")).card) ∧
    pointCounters ["A", "B", "C"] ["A", "B", "D", "C"] = (2, 1) ∧
    ((Finset.range 3 ×ˢ Finset.range 2).filter
      (fun p => ((["A", "B", "C"] : List String).getD p.2 "" =
          (["A", "B", "D", "C"] : List String).getD p.1 "") ∧
        (["A", "B", "D", "C"] : List String).getD p.1 "" = "A")).card = 1 ∧
    ((Finset.range 3 ×ˢ Finset.range 2).filter
      (fun p => (((["A", "B", "C"] : List String).getD p.2 "" =
          (["A", "B", "D", "C"] : List String).getD p.1 "") ∧
        ((["A", "B", "C"] : List String).getD (p.2 + 1) "" =
          (["A", "B", "D", "C"] : List String).getD (p.1 + 1) "")) ∧
        (["A", "B", "D", "C"] : List String).getD p.1 "" = "A")).card = 1 := by
  refine ⟨?_, by decide, by decide, by decide⟩
  intro gtPath sub
  constructor
  · rw [pointCounters_eq_sum, Finset.card_filter, Finset.sum_product]
  · rw [pointCounters_eq_sum, Finset.card_filter, Finset.sum_product]

/-!  Lemmas about the submission loop of `Evaluation.score`. -/

/-- An entry whose id is not in the remaining set — because it was never
expected, or because an earlier entry already carried the same id — has no
effect on the loop. -/
theorem scoreLoop_ignore {E : Eval} :
    ∀ (l1 : List Entry) (e : Entry) (l2 : List Entry) (R : Finset InstrId)
      (sc : Scores) (pc pm : Nat),
      (e.instr_id ∉ R ∨ e.instr_id ∈ subIds l1) →
      scoreLoop E (l1 ++ e :: l2) R sc pc pm = scoreLoop E (l1 ++ l2) R sc pc pm := by
  intro l1
  induction l1 with
  | nil =>
    intro e l2 R sc pc pm hdisj
    have he : e.instr_id ∉ R := by
      rcases hdisj with h | h
      · exact h
      · simp [subIds] at h
    simp only [List.nil_append, scoreLoop, if_neg he]
  | cons x l1 ih =>
    intro e l2 R sc pc pm hdisj
    simp only [List.cons_append, scoreLoop]
    by_cases hx : x.instr_id ∈ R
    · rw [if_pos hx, if_pos hx]
      cases hsi : scoreItem E x.instr_id x.trajectory with
      | error err => rfl
      | ok v =>
        rcases v with ⟨it, c1, c2⟩
        refine ih e l2 _ _ _ _ ?_
        by_cases hxe : e.instr_id = x.instr_id
        · exact Or.inl (by rw [hxe]; exact Finset.not_mem_erase _ _)
        · rcases hdisj with h | h
          · exact Or.inl (fun hc => h (Finset.mem_of_mem_erase hc))
          · refine Or.inr ?_
            simp only [subIds, List.map_cons, List.toFinset_cons, Finset.mem_insert] at h
            rcases h with h | h
            · exact absurd h hxe
            · simpa [subIds] using h
    · rw [if_neg hx, if_neg hx]
      refine ih e l2 _ _ _ _ ?_
      by_cases hxe : e.instr_id = x.instr_id
      · exact Or.inl (by rw [hxe]; exact hx)
      · rcases hdisj with h | h
        · exact Or.inl h
        · refine Or.inr ?_
          simp only [subIds, List.map_cons, List.toFinset_cons, Finset.mem_insert] at h
          rcases h with h | h
          · exact absurd h hxe
          · simpa [subIds] using h

/-- When every entry bearing a still-expected id scores successfully, the
loop completes and the final remaining set is the initial one minus the
submitted ids. -/
theorem scoreLoop_complete {E : Eval} (R0 : Finset InstrId) :
    ∀ (l : List Entry) (R : Finset InstrId) (sc : Scores) (pc pm : Nat),
      R ⊆ R0 →
      (∀ a ∈ l, a.instr_id ∈ R0 → (scoreItem E a.instr_id a.trajectory).isOk = true) →
      ∃ sc2 pc2 pm2, scoreLoop E l R sc pc pm = .ok (R \ subIds l, sc2, pc2, pm2) := by
  intro l
  induction l with
  | nil =>
    intro R sc pc pm _ _
    refine ⟨sc, pc, pm, ?_⟩
    simp [scoreLoop, subIds]
  | cons x l ih =>
    intro R sc pc pm hsub hok
    have hxR : x.instr_id ∈ R → x.instr_id ∈ R0 := fun h => hsub h
    have hrest : ∀ a ∈ l, a.instr_id ∈ R0 → (scoreItem E a.instr_id a.trajectory).isOk = true :=
      fun a ha => hok a (List.mem_cons_of_mem _ ha)
    have hsplit : R \ subIds (x :: l) = (R.erase x.instr_id) \ subIds l := by
      ext y
      simp only [subIds, List.map_cons, List.toFinset_cons, Finset.mem_sdiff,
        Finset.mem_insert, Finset.mem_erase, List.mem_toFinset]
      constructor
      · rintro ⟨hy, hn⟩
        push_neg at hn
        exact ⟨⟨hn.1, hy⟩, by simpa using hn.2⟩
      · rintro ⟨⟨hne, hy⟩, hn⟩
        refine ⟨hy, ?_⟩
        push_neg
        exact ⟨hne, by simpa using hn⟩
    by_cases hx : x.instr_id ∈ R
    · have hokx := hok x (List.mem_cons_self _ _) (hsub hx)
      cases hsi : scoreItem E x.instr_id x.trajectory with
      | error err => rw [hsi] at hokx; simp [Except.isOk, Except.toBool] at hokx
      | ok v =>
        rcases v with ⟨it, c1, c2⟩
        rcases ih (R.erase x.instr_id) (sc.push it) (pc + c1) (pm + c2)
          (le_trans (Finset.erase_subset _ _) hsub) hrest with ⟨sc2, pc2, pm2, hloop⟩
        refine ⟨sc2, pc2, pm2, ?_⟩
        simp only [scoreLoop, if_pos hx, hsi]
        rw [hloop, hsplit]
    · have hxn : R \ subIds (x :: l) = R \ subIds l := by
        rw [hsplit, Finset.erase_eq_of_not_mem hx]
      rcases ih R sc pc pm hsub hrest with ⟨sc2, pc2, pm2, hloop⟩
      refine ⟨sc2, pc2, pm2, ?_⟩
      simp only [scoreLoop, if_neg hx]
      rw [hloop, hxn]

/-- If the submission contains an entry whose id is still unclaimed when it
is reached (no earlier entry bears the same id) and whose `_score_item`
call fails, the loop fails. -/
theorem scoreLoop_err_of_bad {E : Eval} :
    ∀ (l1 : List Entry) (e : Entry) (l2 : List Entry) (R : Finset InstrId)
      (sc : Scores) (pc pm : Nat),
      e.instr_id ∈ R →
      (∀ x ∈ l1, x.instr_id ≠ e.instr_id) →
      (∀ v, scoreItem E e.instr_id e.trajectory ≠ .ok v) →
      ∃ err, scoreLoop E (l1 ++ e :: l2) R sc pc pm = .error err := by
  intro l1
  induction l1 with
  | nil =>
    intro e l2 R sc pc pm he _ hbad
    cases hsi : scoreItem E e.instr_id e.trajectory with
    | error err =>
      refine ⟨err, ?_⟩
      simp only [List.nil_append, scoreLoop, if_pos he, hsi]
    | ok v => exact absurd hsi (hbad v)
  | cons x l1 ih =>
    intro e l2 R sc pc pm he hfirst hbad
    have hxe : x.instr_id ≠ e.instr_id := hfirst x (List.mem_cons_self _ _)
    have hfirst' : ∀ y ∈ l1, y.instr_id ≠ e.instr_id :=
      fun y hy => hfirst y (List.mem_cons_of_mem _ hy)
    simp only [List.cons_append, scoreLoop]
    by_cases hx : x.instr_id ∈ R
    · rw [if_pos hx]
      cases hsi : scoreItem E x.instr_id x.trajectory with
      | error err => exact ⟨err, rfl⟩
      | ok v =>
        rcases v with ⟨it, c1, c2⟩
        exact ih e l2 _ _ _ _ (Finset.mem_erase_of_ne_of_mem (fun hc => hxe hc.symm) he)
          hfirst' hbad
    · rw [if_neg hx]
      exact ih e l2 R sc pc pm he hfirst' hbad

/-- The loop keeps the five metric lists at equal lengths. -/
theorem scoreLoop_balanced {E : Eval} :
    ∀ (l : List Entry) (R : Finset InstrId) (sc : Scores) (pc pm : Nat)
      (R2 : Finset InstrId) (sc2 : Scores) (pc2 pm2 : Nat),
      scoreLoop E l R sc pc pm = .ok (R2, sc2, pc2, pm2) →
      (sc.oracle_errors.length = sc.nav_errors.length ∧
       sc.trajectory_steps.length = sc.nav_errors.length ∧
       sc.trajectory_lengths.length = sc.nav_errors.length ∧
       sc.success_path_length.length = sc.nav_errors.length) →
      sc2.oracle_errors.length = sc2.nav_errors.length ∧
      sc2.trajectory_steps.length = sc2.nav_errors.length ∧
      sc2.trajectory_lengths.length = sc2.nav_errors.length ∧
      sc2.success_path_length.length = sc2.nav_errors.length := by
  intro l
  induction l with
  | nil =>
    intro R sc pc pm R2 sc2 pc2 pm2 h hbal
    simp only [scoreLoop] at h
    cases h
    exact hbal
  | cons x l ih =>
    intro R sc pc pm R2 sc2 pc2 pm2 h hbal
    simp only [scoreLoop] at h
    by_cases hx : x.instr_id ∈ R
    · rw [if_pos hx] at h
      cases hsi : scoreItem E x.instr_id x.trajectory with
      | error err => rw [hsi] at h; cases h
      | ok v =>
        rcases v with ⟨it, c1, c2⟩
        rw [hsi] at h
        refine ih _ _ _ _ _ _ _ _ h ?_
        rcases hbal with ⟨h1, h2, h3, h4⟩
        simp [Scores.push, h1, h2, h3, h4]
    · rw [if_neg hx] at h
      exact ih _ _ _ _ _ _ _ _ h hbal

/-- C2 (amended): submission entries whose instruction id is outside the
expected set — or which duplicate an id already carried by an earlier
entry — are ignored without being flagged; and when `k > 0` of the `N`
expected ids are absent from the submission (and every scored entry
succeeds), `score` raises the coverage assertion whose message is exactly
`'Missing k of N instruction ids from <splits> - not in <file>'`, and no
summary is produced. -/
theorem coverage_validation :
    (∀ (E : Eval) (l1 : List Entry) (e : Entry) (l2 : List Entry) (f : String),
      (e.instr_id ∉ expectedIds E.gtList ∨ e.instr_id ∈ subIds l1) →
      score E (l1 ++ e :: l2) f = score E (l1 ++ l2) f) ∧
    (∀ (E : Eval) (sub : List Entry) (f : String),
      (∀ a ∈ sub, a.instr_id ∈ expectedIds E.gtList →
        (scoreItem E a.instr_id a.trajectory).isOk = true) →
      (expectedIds E.gtList \ subIds sub).card ≠ 0 →
      score E sub f = .error (.assertCoverage
        (coverageMsg (expectedIds E.gtList \ subIds sub).card
          (expectedIds E.gtList).card E.splits f))) := by
  constructor
  · intro E l1 e l2 f hdisj
    unfold score
    rw [scoreLoop_ignore l1 e l2 _ _ _ _ hdisj]
  · intro E sub f hok hk
    rcases scoreLoop_complete (expectedIds E.gtList) sub (expectedIds E.gtList)
      Scores.empty 0 0 (le_refl _) hok with ⟨sc2, pc2, pm2, hloop⟩
    simp only [score, hloop]
    rw [scoreFinish, if_neg hk]

/-- C2 witness: on the square environment, an entry with the unexpected id
`7_3` is ignored, and a submission missing `7_2` raises the coverage error
with the exact message. -/
theorem coverage_validation_witness :
    score sqEvalAB (goodSub ++ ⟨(7, 3), badStartT⟩ :: []) "out.json" =
      score sqEvalAB (goodSub ++ []) "out.json" ∧
    score sqEvalAB missSub "out.json" = .error (.assertCoverage
      (coverageMsg (expectedIds sqEvalAB.gtList \ subIds missSub).card
        (expectedIds sqEvalAB.gtList).card sqEvalAB.splits "out.json")) :=
  ⟨coverage_validation.1 sqEvalAB goodSub ⟨(7, 3), badStartT⟩ [] "out.json"
      (Or.inl (by decide)),
   coverage_validation.2 sqEvalAB missSub "out.json" (by decide) (by decide)⟩

/-- C2 counterexample: the coverage message is
`'Missing 1 of 3 ...'` with a capital `M` — it does not report the exact
lowercase phrase `"missing 1 of 3"` the claim demands — and a submission
carrying an expected id twice (plus every other id once) is not flagged:
the run returns a summary, so "must appear exactly once" is not enforced
against duplicates. -/
theorem coverage_validation_counterexample :
    score sqEvalAB missSub "out.json" = .error (.assertCoverage
      "Missing 1 of 3 instruction ids from val_seen - not in out.json") ∧
    containsSub "missing 1 of 3".toList
      "Missing 1 of 3 instruction ids from val_seen - not in out.json".toList = false ∧
    containsSub "Missing 1 of 3".toList
      "Missing 1 of 3 instruction ids from val_seen - not in out.json".toList = true ∧
    (score sqEvalAB dupSub "out.json").isOk = true :=
  ⟨by decide, by decide, by decide, by decide⟩

/-- C3 (amended): a submitted trajectory whose first viewpoint differs from
the ground-truth start fails `_score_item` with the start-mismatch
assertion before any metric is produced, and a run whose submission
contains such an entry in a scored position (its id is expected and no
earlier entry bears the same id) never returns a summary.  (An entry that
is ignored — unexpected id, or an id already consumed by an earlier entry —
does not halt the run; see the counterexample.) -/
theorem start_mismatch_halts {E : Eval} {l1 : List Entry} {e : Entry}
    {l2 : List Entry} {g : GroundTruth} {s : String} {t0 : TrajStep}
    (hfirst : ∀ x ∈ l1, x.instr_id ≠ e.instr_id)
    (hexp : e.instr_id ∈ expectedIds E.gtList)
    (hg : gtFind E.gtList e.instr_id.1 = some g)
    (h0 : g.path.get? 0 = some s)
    (ht : e.trajectory.get? 0 = some t0)
    (hne : t0.viewpoint ≠ s) :
    scoreItem E e.instr_id e.trajectory = .error .startMismatch ∧
    ∀ f, (score E (l1 ++ e :: l2) f).isOk = false := by
  have hitem : scoreItem E e.instr_id e.trajectory = .error .startMismatch := by
    simp only [scoreItem, hg, h0, ht]
    rw [if_neg (fun hc => hne hc.symm)]
  refine ⟨hitem, ?_⟩
  intro f
  rcases scoreLoop_err_of_bad l1 e l2 (expectedIds E.gtList) Scores.empty 0 0 hexp
    hfirst (fun v hc => by rw [hitem] at hc; cases hc) with ⟨err, hloop⟩
  simp only [score, hloop]
  rfl

/-- C3 witness: a submission whose second entry (first occurrence of id
`7_1`) starts at `B` instead of `A` halts the run. -/
theorem start_mismatch_halts_witness :
    scoreItem sqEvalAB (7, 1) badStartT = .error .startMismatch ∧
    (score sqEvalAB
      ([⟨(7, 0), goodT⟩] ++ ⟨(7, 1), badStartT⟩ :: [⟨(7, 2), goodT⟩])
      "out.json").isOk = false :=
  have h := @start_mismatch_halts sqEvalAB [⟨(7, 0), goodT⟩] ⟨(7, 1), badStartT⟩
    [⟨(7, 2), goodT⟩] ⟨7, "sq", ["A", "B"]⟩ "A" (mkT "B")
    (by decide) (by decide) (by decide) (by decide) (by decide) (by decide)
  ⟨h.1, h.2 "out.json"⟩

/-- C3 counterexample: the claim's "an evaluation run containing such a
trajectory never returns a summary" fails: a run containing a
start-mismatched trajectory in an *ignored* entry (id `7_3` is outside the
expected set) still returns a summary. -/
theorem start_mismatch_ignored_counterexample :
    (score sqEvalAB ignoredBadSub "out.json").isOk = true ∧
    (⟨(7, 3), badStartT⟩ : Entry) ∈ ignoredBadSub ∧
    scoreItem sqEvalAB (7, 3) badStartT = .error .startMismatch :=
  ⟨by decide, by decide, by decide⟩

/-- C9: when `Evaluation.score` completes, all five accumulated metric
lists have identical length equal to the number of expected instruction
ids; a run with mismatched list lengths never produces a summary (the
length assertion and the joint appends make it impossible). -/
theorem metric_lists_complete {E : Eval} {sub : List Entry} {f : String}
    {summ : Summary} {sc : Scores}
    (h : score E sub f = .ok (summ, sc)) :
    sc.nav_errors.length = (expectedIds E.gtList).card ∧
    sc.oracle_errors.length = (expectedIds E.gtList).card ∧
    sc.trajectory_steps.length = (expectedIds E.gtList).card ∧
    sc.trajectory_lengths.length = (expectedIds E.gtList).card ∧
    sc.success_path_length.length = (expectedIds E.gtList).card := by
  cases hloop : scoreLoop E sub (expectedIds E.gtList) Scores.empty 0 0 with
  | error err => simp only [score, hloop] at h; exact absurd h (by simp)
  | ok out =>
    rcases out with ⟨R2, sc2, pc2, pm2⟩
    simp only [score, hloop, scoreFinish] at h
    have hbal := scoreLoop_balanced sub (expectedIds E.gtList) Scores.empty 0 0
      R2 sc2 pc2 pm2 hloop (by simp [Scores.empty])
    split at h
    · split at h
      next hlen =>
        split at h
        · cases h
        · split at h
          · cases h
          · split at h
            · cases h
            · simp only [Except.ok.injEq, Prod.mk.injEq] at h
              rcases h with ⟨_, hsc⟩
              subst hsc
              exact ⟨hlen, hbal.1.trans hlen, hbal.2.1.trans hlen,
                hbal.2.2.1.trans hlen, hbal.2.2.2.trans hlen⟩
      next hlen => cases h
    · cases h

/-- C9 witness: a complete correct run on the square environment yields
five metric lists of length 3 = number of expected ids. -/
theorem metric_lists_complete_witness :
    score sqEvalAB goodSub "out.json" =
      .ok (⟨0, 0, 1, 1, 1, 1, 1⟩,
        ⟨[0, 0, 0], [0, 0, 0], [1, 1, 1], [1, 1, 1], [1, 1, 1]⟩) ∧
    ([( 0 : ℚ), 0, 0].length = (expectedIds sqEvalAB.gtList).card ∧
     [(0 : ℚ), 0, 0].length = (expectedIds sqEvalAB.gtList).card ∧
     [(1 : Nat), 1, 1].length = (expectedIds sqEvalAB.gtList).card ∧
     [(1 : ℚ), 1, 1].length = (expectedIds sqEvalAB.gtList).card ∧
     [(1 : ℚ), 1, 1].length = (expectedIds sqEvalAB.gtList).card) :=
  ⟨by decide,
    @metric_lists_complete sqEvalAB goodSub "out.json" ⟨0, 0, 1, 1, 1, 1, 1⟩
      ⟨[0, 0, 0], [0, 0, 0], [1, 1, 1], [1, 1, 1], [1, 1, 1]⟩ (by decide)⟩

/-!  The graph loader: soundness of the produced edges and the
undirectedness assertion. -/

/-- Membership in `List.enum` is exactly a successful indexed lookup. -/
theorem mem_enum_iff_get? {α : Type} {l : List α} {i : Nat} {a : α} :
    (i, a) ∈ l.enum ↔ l.get? i = some a := by
  constructor
  · intro h
    rcases List.mem_enum h with ⟨hlt, ha⟩
    rw [ha, List.get?_eq_getElem?, List.getElem?_eq_getElem hlt]
  · intro h
    have hlt : i < l.length := by
      by_contra hge
      rw [List.get?_eq_getElem?, List.getElem?_eq_none (le_of_not_lt hge)] at h
      cases h
    have ha : l[i] = a := by
      rw [List.get?_eq_getElem?, List.getElem?_eq_getElem hlt] at h
      exact (Option.some.injEq _ _).mp h
    have hlt2 : i < l.enum.length := by rw [List.enum_length]; exact hlt
    have hmem : l.enum[i] = (i, a) := by
      rw [List.getElem_enum, ha]
    rw [← hmem]
    exact List.getElem_mem _

/-- Every edge the inner loop appends comes from a connected, included,
back-unobstructed record. -/
theorem loadInner_sound {dist : ConnRecord → ConnRecord → ℝ}
    {data : List ConnRecord} {i : Nat} {item : ConnRecord} :
    ∀ (l : List (Nat × Bool)) (es es2 : List NavEdge),
      loadInner dist data i item l es = .ok es2 →
      ∀ e ∈ es2, e ∈ es ∨ ∃ j dj, (j, true) ∈ l ∧ data.get? j = some dj ∧
        dj.included = true ∧ dj.unobstructed.getD i false = true ∧
        e = (item.image_id, dj.image_id, dist item dj) := by
  intro l
  induction l with
  | nil =>
    intro es es2 h e he
    simp only [loadInner] at h
    cases h
    exact Or.inl he
  | cons p rest ih =>
    intro es es2 h e he
    rcases p with ⟨j, conn⟩
    simp only [loadInner] at h
    cases conn with
    | false =>
      simp only [Bool.false_eq_true, if_false] at h
      rcases ih es es2 h e he with hl | ⟨j', dj, hmem, hrest⟩
      · exact Or.inl hl
      · exact Or.inr ⟨j', dj, List.mem_cons_of_mem _ hmem, hrest⟩
    | true =>
      simp only [if_true] at h
      cases hj : data.get? j with
      | none =>
        simp only [hj] at h
        exact absurd h (by simp)
      | some dj =>
        simp only [hj] at h
        by_cases hinc : dj.included = true
        · rw [if_pos hinc] at h
          by_cases hback : dj.unobstructed.getD i false = true
          · rw [if_pos hback] at h
            rcases ih _ es2 h e he with hl | ⟨j', dj', hmem, hrest⟩
            · rcases List.mem_append.mp hl with hl | hl
              · exact Or.inl hl
              · rcases List.mem_singleton.mp hl with rfl
                exact Or.inr ⟨j, dj, List.mem_cons_self _ _, hj, hinc, hback, rfl⟩
            · exact Or.inr ⟨j', dj', List.mem_cons_of_mem _ hmem, hrest⟩
          · rw [if_neg hback] at h
            exact absurd h (by simp)
        · rw [if_neg hinc] at h
          rcases ih es es2 h e he with hl | ⟨j', dj', hmem, hrest⟩
          · exact Or.inl hl
          · exact Or.inr ⟨j', dj', List.mem_cons_of_mem _ hmem, hrest⟩

/-- If the inner loop completes, every connected included neighbour was
back-unobstructed. -/
theorem loadInner_ok_symm {dist : ConnRecord → ConnRecord → ℝ}
    {data : List ConnRecord} {i : Nat} {item : ConnRecord} :
    ∀ (l : List (Nat × Bool)) (es es2 : List NavEdge),
      loadInner dist data i item l es = .ok es2 →
      ∀ j, (j, true) ∈ l → ∀ dj, data.get? j = some dj → dj.included = true →
        dj.unobstructed.getD i false = true := by
  intro l
  induction l with
  | nil => intro es es2 h j hj; simp at hj
  | cons p rest ih =>
    intro es es2 h j hj dj hdj hinc
    rcases p with ⟨j0, conn⟩
    simp only [loadInner] at h
    cases conn with
    | false =>
      simp only [Bool.false_eq_true, if_false] at h
      have hj' : (j, true) ∈ rest := by
        rcases List.mem_cons.mp hj with hj1 | hj1
        · injection hj1 with h1 h2
          exact absurd h2 (by simp)
        · exact hj1
      exact ih _ _ h j hj' dj hdj hinc
    | true =>
      simp only [if_true] at h
      cases hj0 : data.get? j0 with
      | none =>
        simp only [hj0] at h
        exact absurd h (by simp)
      | some dj0 =>
        simp only [hj0] at h
        by_cases hinc0 : dj0.included = true
        · rw [if_pos hinc0] at h
          by_cases hback0 : dj0.unobstructed.getD i false = true
          · rw [if_pos hback0] at h
            rcases List.mem_cons.mp hj with hj1 | hj1
            · injection hj1 with h1 h2
              subst h1
              rw [hdj] at hj0
              injection hj0 with h3
              rw [h3]
              exact hback0
            · exact ih _ _ h j hj1 dj hdj hinc
          · rw [if_neg hback0] at h
            exact absurd h (by simp)
        · rw [if_neg hinc0] at h
          rcases List.mem_cons.mp hj with hj1 | hj1
          · injection hj1 with h1 h2
            subst h1
            rw [hdj] at hj0
            injection hj0 with h3
            rw [h3] at hinc
            exact absurd hinc hinc0
          · exact ih _ _ h j hj1 dj hdj hinc

/-- With in-range neighbour indices, the inner loop either completes or
fails with the undirectedness assertion. -/
theorem loadInner_total {dist : ConnRecord → ConnRecord → ℝ}
    {data : List ConnRecord} {i : Nat} {item : ConnRecord} :
    ∀ (l : List (Nat × Bool)) (es : List NavEdge),
      (∀ j c, (j, c) ∈ l → ∃ dj, data.get? j = some dj) →
      (∃ es2, loadInner dist data i item l es = .ok es2) ∨
        loadInner dist data i item l es = .error "Graph should be undirected" := by
  intro l
  induction l with
  | nil => intro es _; exact Or.inl ⟨es, rfl⟩
  | cons p rest ih =>
    intro es hwf
    rcases p with ⟨j, conn⟩
    have hwf' : ∀ j' c, (j', c) ∈ rest → ∃ dj, data.get? j' = some dj :=
      fun j' c hm => hwf j' c (List.mem_cons_of_mem _ hm)
    simp only [loadInner]
    cases conn with
    | false =>
      simp only [Bool.false_eq_true, if_false]
      exact ih es hwf'
    | true =>
      simp only [if_true]
      rcases hwf j true (List.mem_cons_self _ _) with ⟨dj, hdj⟩
      simp only [hdj]
      by_cases hinc : dj.included = true
      · rw [if_pos hinc]
        by_cases hback : dj.unobstructed.getD i false = true
        · rw [if_pos hback]
          exact ih _ hwf'
        · rw [if_neg hback]
          exact Or.inr rfl
      · rw [if_neg hinc]
        exact ih es hwf'

/-- Every edge the outer loop accumulates comes from a pair of included,
mutually unobstructed records. -/
theorem loadOuter_sound {dist : ConnRecord → ConnRecord → ℝ}
    {data : List ConnRecord} :
    ∀ (l : List (Nat × ConnRecord)) (es es2 : List NavEdge),
      loadOuter dist data l es = .ok es2 →
      ∀ e ∈ es2, e ∈ es ∨ ∃ i item j dj, (i, item) ∈ l ∧ item.included = true ∧
        (j, true) ∈ item.unobstructed.enum ∧ data.get? j = some dj ∧
        dj.included = true ∧ dj.unobstructed.getD i false = true ∧
        e = (item.image_id, dj.image_id, dist item dj) := by
  intro l
  induction l with
  | nil =>
    intro es es2 h e he
    simp only [loadOuter] at h
    cases h
    exact Or.inl he
  | cons p rest ih =>
    intro es es2 h e he
    rcases p with ⟨i, item⟩
    simp only [loadOuter] at h
    by_cases hinc : item.included = true
    · rw [if_pos hinc] at h
      cases hin : loadInner dist data i item item.unobstructed.enum es with
      | error err =>
        simp only [hin] at h
        exact absurd h (by simp)
      | ok es' =>
        simp only [hin] at h
        rcases ih es' es2 h e he with hl | ⟨i', item', j', dj', hmem, hrest⟩
        · rcases loadInner_sound _ es es' hin e hl with hl2 | ⟨j, dj, hj, hrest2⟩
          · exact Or.inl hl2
          · exact Or.inr ⟨i, item, j, dj, List.mem_cons_self _ _, hinc, hj, hrest2⟩
        · exact Or.inr ⟨i', item', j', dj', List.mem_cons_of_mem _ hmem, hrest⟩
    · rw [if_neg hinc] at h
      rcases ih es es2 h e he with hl | ⟨i', item', j', dj', hmem, hrest⟩
      · exact Or.inl hl
      · exact Or.inr ⟨i', item', j', dj', List.mem_cons_of_mem _ hmem, hrest⟩

/-- If the outer loop completes, the undirectedness assertion held at every
scanned pair. -/
theorem loadOuter_ok_symm {dist : ConnRecord → ConnRecord → ℝ}
    {data : List ConnRecord} :
    ∀ (l : List (Nat × ConnRecord)) (es es2 : List NavEdge),
      loadOuter dist data l es = .ok es2 →
      ∀ i item, (i, item) ∈ l → item.included = true →
        ∀ j, (j, true) ∈ item.unobstructed.enum →
          ∀ dj, data.get? j = some dj → dj.included = true →
            dj.unobstructed.getD i false = true := by
  intro l
  induction l with
  | nil => intro es es2 h i item hmem; simp at hmem
  | cons p rest ih =>
    intro es es2 h i item hmem hinc j hj dj hdj hdjinc
    rcases p with ⟨i0, item0⟩
    simp only [loadOuter] at h
    by_cases hinc0 : item0.included = true
    · rw [if_pos hinc0] at h
      cases hin : loadInner dist data i0 item0 item0.unobstructed.enum es with
      | error err =>
        simp only [hin] at h
        exact absurd h (by simp)
      | ok es' =>
        simp only [hin] at h
        rcases List.mem_cons.mp hmem with hm | hm
        · injection hm with h1 h2
          subst h1
          subst h2
          exact loadInner_ok_symm _ es es' hin j hj dj hdj hdjinc
        · exact ih es' es2 h i item hm hinc j hj dj hdj hdjinc
    · rw [if_neg hinc0] at h
      rcases List.mem_cons.mp hmem with hm | hm
      · injection hm with h1 h2
        subst h1
        subst h2
        exact absurd hinc hinc0
      · exact ih es es2 h i item hm hinc j hj dj hdj hdjinc

/-- With well-formed data, the outer loop either completes or fails with
the undirectedness assertion. -/
theorem loadOuter_total {dist : ConnRecord → ConnRecord → ℝ}
    {data : List ConnRecord} :
    ∀ (l : List (Nat × ConnRecord)) (es : List NavEdge),
      (∀ p ∈ l, ∀ j c, (j, c) ∈ (Prod.snd p).unobstructed.enum →
        ∃ dj, data.get? j = some dj) →
      (∃ es2, loadOuter dist data l es = .ok es2) ∨
        loadOuter dist data l es = .error "Graph should be undirected" := by
  intro l
  induction l with
  | nil => intro es _; exact Or.inl ⟨es, rfl⟩
  | cons p rest ih =>
    intro es hwf
    rcases p with ⟨i, item⟩
    have hwf' : ∀ p ∈ rest, ∀ j c, (j, c) ∈ (Prod.snd p).unobstructed.enum →
        ∃ dj, data.get? j = some dj :=
      fun p hp => hwf p (List.mem_cons_of_mem _ hp)
    simp only [loadOuter]
    have hwfh : ∀ j c, (j, c) ∈ item.unobstructed.enum → ∃ dj, data.get? j = some dj :=
      hwf (i, item) (List.mem_cons_self _ _)
    by_cases hinc : item.included = true
    · rw [if_pos hinc]
      rcases loadInner_total item.unobstructed.enum es hwfh with ⟨es', hes'⟩ | herr
      · rw [hes']
        exact ih es' hwf'
      · rw [herr]
        exact Or.inr rfl
    · rw [if_neg hinc]
      exact ih es hwf'

/-- A true entry of the `getD` lookup is a true entry of the enumeration. -/
theorem getD_true_mem_enum {l : List Bool} {j : Nat}
    (h : l.getD j false = true) : (j, true) ∈ l.enum := by
  rw [List.getD_eq_getD_get?] at h
  cases hg : l.get? j with
  | none => rw [hg] at h; simp at h
  | some b =>
    rw [hg] at h
    simp only [Option.getD_some] at h
    subst h
    exact mem_enum_iff_get?.mpr hg

/-- Soundness of `load_nav_graphs`: every added edge joins two included
records that are unobstructed in both directions, and its weight is the
supplied distance of the two records. -/
theorem load_nav_graph_sound {dist : ConnRecord → ConnRecord → ℝ}
    {data : List ConnRecord} {es : List NavEdge}
    (h : load_nav_graph dist data = .ok es) :
    ∀ e ∈ es, ∃ i j ri rj, data.get? i = some ri ∧ data.get? j = some rj ∧
      ri.included = true ∧ rj.included = true ∧
      ri.unobstructed.getD j false = true ∧ rj.unobstructed.getD i false = true ∧
      e = (ri.image_id, rj.image_id, dist ri rj) := by
  intro e he
  rcases loadOuter_sound data.enum [] es h e he with hl | ⟨i, item, j, dj, hmem,
    hinc, hj, hdj, hdjinc, hback, hedge⟩
  · simp at hl
  · refine ⟨i, j, item, dj, mem_enum_iff_get?.mp hmem, hdj, hinc, hdjinc, ?_, hback, hedge⟩
    rw [List.getD_eq_getD_get?, mem_enum_iff_get?.mp hj]
    rfl

/-- Completion of `load_nav_graphs` certifies the undirectedness of the
connectivity relation over included, forward-unobstructed pairs. -/
theorem load_nav_graph_ok_symm {dist : ConnRecord → ConnRecord → ℝ}
    {data : List ConnRecord} {es : List NavEdge}
    (h : load_nav_graph dist data = .ok es) :
    ∀ i j ri rj, data.get? i = some ri → data.get? j = some rj →
      ri.included = true → ri.unobstructed.getD j false = true →
      rj.included = true → rj.unobstructed.getD i false = true := by
  intro i j ri rj hi hj hinc hconn hjinc
  exact loadOuter_ok_symm data.enum [] es h i ri (mem_enum_iff_get?.mpr hi) hinc
    j (getD_true_mem_enum hconn) rj hj hjinc

/-- With in-range `unobstructed` rows, `load_nav_graphs` either completes
or fails with the undirectedness assertion. -/
theorem load_nav_graph_total {dist : ConnRecord → ConnRecord → ℝ}
    {data : List ConnRecord}
    (hwf : ∀ r ∈ data, r.unobstructed.length ≤ data.length) :
    (∃ es, load_nav_graph dist data = .ok es) ∨
      load_nav_graph dist data = .error "Graph should be undirected" := by
  refine loadOuter_total data.enum [] ?_
  intro p hp j c hj
  have hpd : data.get? p.1 = some p.2 := by
    rcases p with ⟨i, item⟩
    exact mem_enum_iff_get?.mp hp
  have hmem : p.2 ∈ data := by
    cases hg : data.get? p.1 with
    | none => rw [hg] at hpd; cases hpd
    | some r =>
      rw [hg] at hpd
      injection hpd with h2
      subst h2
      exact List.get?_mem hg
  have hjlt : j < p.2.unobstructed.length := (List.mem_enum hj).1
  have hjlt2 : j < data.length := lt_of_lt_of_le hjlt (hwf _ hmem)
  refine ⟨data[j], ?_⟩
  rw [List.get?_eq_getElem?, List.getElem?_eq_getElem hjlt2]

/-- C8: The graph loader adds an edge between viewpoints `i` and `j` only
if both records are marked included and the unobstructed relation holds in
both directions, with edge weight equal to the Euclidean distance between
the two viewpoints' 3D positions; and whenever a would-be edge's reverse
direction is not marked unobstructed (over well-formed records, whose
`unobstructed` rows index into the record list), loading fails fast with
the error `'Graph should be undirected'` rather than building the graph. -/
theorem loader_edge_conditions :
    (∀ (data : List ConnRecord) (es : List NavEdge),
      load_nav_graph euDist data = .ok es →
      ∀ e ∈ es, ∃ i j ri rj, data.get? i = some ri ∧ data.get? j = some rj ∧
        ri.included = true ∧ rj.included = true ∧
        ri.unobstructed.getD j false = true ∧
        rj.unobstructed.getD i false = true ∧
        e = (ri.image_id, rj.image_id, euDist ri rj)) ∧
    (∀ (data : List ConnRecord),
      (∀ r ∈ data, r.unobstructed.length ≤ data.length) →
      (∃ i j ri rj, data.get? i = some ri ∧ data.get? j = some rj ∧
        ri.included = true ∧ ri.unobstructed.getD j false = true ∧
        rj.included = true ∧ rj.unobstructed.getD i false = false) →
      load_nav_graph euDist data = .error "Graph should be undirected") := by
  constructor
  · intro data es h
    exact load_nav_graph_sound h
  · intro data hwf ⟨i, j, ri, rj, hi, hj, hinc, hconn, hjinc, hbad⟩
    rcases load_nav_graph_total hwf with ⟨es, hok⟩ | herr
    · have := load_nav_graph_ok_symm hok i j ri rj hi hj hinc hconn hjinc
      rw [this] at hbad
      cases hbad
    · exact herr

/-- C8 witness: loading the two-record environment `A - B` produces exactly
the two `add_edge` calls with Euclidean weights, and the first edge
satisfies the conditions; breaking the reverse `unobstructed` flag of `B`
makes loading fail with the undirectedness error. -/
theorem loader_edge_conditions_witness :
    load_nav_graph euDist [connA, connB] =
      .ok [("A", "B", euDist connA connB), ("B", "A", euDist connB connA)] ∧
    (∃ i j ri rj, [connA, connB].get? i = some ri ∧
      [connA, connB].get? j = some rj ∧
      ri.included = true ∧ rj.included = true ∧
      ri.unobstructed.getD j false = true ∧
      rj.unobstructed.getD i false = true ∧
      (("A", "B", euDist connA connB) : NavEdge) =
        (ri.image_id, rj.image_id, euDist ri rj)) ∧
    load_nav_graph euDist [connA, connBbad] = .error "Graph should be undirected" :=
  ⟨rfl,
    loader_edge_conditions.1 [connA, connB] _ rfl _ (List.mem_cons_self _ _),
    loader_edge_conditions.2 [connA, connBbad]
      (by
        intro r hr
        rcases List.mem_cons.mp hr with rfl | hr
        · exact le_refl _
        · rcases List.mem_cons.mp hr with rfl | hr
          · exact le_refl _
          · simp at hr)
      ⟨0, 1, connA, connBbad, rfl, rfl, rfl, rfl, rfl, rfl⟩⟩

/-!  Shortest-path distance tables: symmetry and zero diagonal. -/

/-- The folded minimum is a lower bound of the start and of every element,
and is the start or an element. -/
theorem foldl_min_spec {α : Type} [LinearOrder α] :
    ∀ (l : List α) (a : α),
      (l.foldl min a ≤ a) ∧ (∀ x ∈ l, l.foldl min a ≤ x) ∧
        (l.foldl min a = a ∨ l.foldl min a ∈ l) := by
  intro l
  induction l with
  | nil => intro a; exact ⟨le_refl _, by simp, Or.inl rfl⟩
  | cons x xs ih =>
    intro a
    simp only [List.foldl_cons]
    rcases ih (min a x) with ⟨h1, h2, h3⟩
    refine ⟨le_trans h1 (min_le_left _ _), ?_, ?_⟩
    · intro v hv
      rcases List.mem_cons.mp hv with rfl | hv
      · exact le_trans h1 (min_le_right _ _)
      · exact h2 v hv
    · rcases h3 with h3 | h3
      · rcases min_cases a x with ⟨hm, _⟩ | ⟨hm, _⟩
        · exact Or.inl (h3.trans hm)
        · exact Or.inr (by rw [h3, hm]; exact List.mem_cons_self _ _)
      · exact Or.inr (List.mem_cons_of_mem _ h3)

/-- The minimum of a non-empty list is a member. -/
theorem listMin_mem {α : Type} [LinearOrder α] {l : List α} {m : α}
    (h : listMin l = some m) : m ∈ l := by
  cases l with
  | nil => cases h
  | cons x xs =>
    simp only [listMin] at h
    injection h with h
    rcases (foldl_min_spec xs x).2.2 with h3 | h3
    · rw [← h, h3]; exact List.mem_cons_self _ _
    · rw [← h]; exact List.mem_cons_of_mem _ h3

/-- The minimum of a list is a lower bound. -/
theorem listMin_le {α : Type} [LinearOrder α] {l : List α} {m : α}
    (h : listMin l = some m) : ∀ x ∈ l, m ≤ x := by
  cases l with
  | nil => cases h
  | cons x xs =>
    simp only [listMin] at h
    injection h with h
    intro v hv
    rcases List.mem_cons.mp hv with rfl | hv
    · rw [← h]; exact (foldl_min_spec xs v).1
    · rw [← h]; exact (foldl_min_spec xs x).2.1 v hv

/-- A non-empty list has a minimum. -/
theorem listMin_some {α : Type} [LinearOrder α] {l : List α} (h : l ≠ []) :
    ∃ m, listMin l = some m := by
  cases l with
  | nil => exact absurd rfl h
  | cons x xs => exact ⟨xs.foldl min x, rfl⟩

/-- Lists with the same members have the same minimum. -/
theorem listMin_congr {α : Type} [LinearOrder α] {l1 l2 : List α}
    (h : ∀ x, x ∈ l1 ↔ x ∈ l2) : listMin l1 = listMin l2 := by
  cases hl1 : l1 with
  | nil =>
    cases hl2 : l2 with
    | nil => rfl
    | cons y ys =>
      exact absurd ((h y).mpr (hl2 ▸ List.mem_cons_self _ _)) (by rw [hl1]; simp)
  | cons x xs =>
    cases hl2 : l2 with
    | nil =>
      exact absurd ((h x).mp (hl1 ▸ List.mem_cons_self _ _)) (by rw [hl2]; simp)
    | cons y ys =>
      rcases listMin_some (l := l1) (by rw [hl1]; simp) with ⟨m1, hm1⟩
      rcases listMin_some (l := l2) (by rw [hl2]; simp) with ⟨m2, hm2⟩
      rw [hl1] at hm1 h
      rw [hl2] at hm2 h
      rw [hm1, hm2]
      have hle1 : m1 ≤ m2 := listMin_le hm1 m2 ((h m2).mpr (listMin_mem hm2))
      have hle2 : m2 ≤ m1 := listMin_le hm2 m1 ((h m1).mp (listMin_mem hm1))
      rw [le_antisymm hle1 hle2]

/-- With non-negative edge weights, every path cost is non-negative. -/
theorem pathCost_nonneg {α : Type} [LinearOrderedAddCommMonoid α]
    {w : String → String → Option α}
    (hw : ∀ x y c, w x y = some c → 0 ≤ c) :
    ∀ (p : List String) (c : α), pathCost w p = some c → 0 ≤ c := by
  intro p
  induction p with
  | nil => intro c h; cases h
  | cons x rest ih =>
    intro c h
    cases rest with
    | nil =>
      simp only [pathCost] at h
      injection h with h0
      rw [← h0]
    | cons y rest2 =>
      simp only [pathCost] at h
      cases hw1 : w x y with
      | none =>
        simp only [hw1] at h
        exact absurd h (by simp)
      | some c1 =>
        simp only [hw1] at h
        cases hc2 : pathCost w (y :: rest2) with
        | none =>
          simp only [hc2] at h
          exact absurd h (by simp)
        | some c2 =>
          simp only [hc2] at h
          injection h with hc
          rw [← hc]
          exact add_nonneg (hw x y c1 hw1) (ih c2 hc2)

/-- Appending one vertex to a non-empty path adds the connecting edge's
weight to the path cost. -/
theorem pathCost_append_last {α : Type} [LinearOrderedAddCommMonoid α]
    {w : String → String → Option α} :
    ∀ (q : List String) (u x : String), q.getLast? = some u →
      pathCost w (q ++ [x]) =
        (pathCost w q).bind (fun c => (w u x).map (fun d => c + d)) := by
  intro q
  induction q with
  | nil => intro u x h; cases h
  | cons v q2 ih =>
    intro u x h
    cases q2 with
    | nil =>
      have hu : u = v := by
        simp only [List.getLast?_singleton] at h
        injection h with h
        exact h.symm
      subst hu
      simp only [List.cons_append, List.nil_append, pathCost]
      cases hw1 : w u x with
      | none => rfl
      | some d => simp [add_comm]
    | cons v2 q3 =>
      have hlast : (v2 :: q3).getLast? = some u := by
        rw [← List.getLast?_cons_cons]
        exact h
      have hih := ih u x hlast
      simp only [List.cons_append] at hih ⊢
      simp only [pathCost]
      rw [hih]
      cases hw1 : w v v2 with
      | none => rfl
      | some c1 =>
        cases hc2 : pathCost w (v2 :: q3) with
        | none => rfl
        | some c2 =>
          cases hw2 : w u x with
          | none => rfl
          | some d =>
            simp [add_assoc]

/-- With a symmetric weight lookup, reversing a path preserves its cost. -/
theorem pathCost_reverse {α : Type} [LinearOrderedAddCommMonoid α]
    {w : String → String → Option α} (hsym : ∀ x y, w x y = w y x) :
    ∀ p : List String, pathCost w p.reverse = pathCost w p := by
  intro p
  induction p with
  | nil => rfl
  | cons x rest ih =>
    cases rest with
    | nil => rfl
    | cons y rest2 =>
      have hrev : (x :: y :: rest2).reverse = (y :: rest2).reverse ++ [x] :=
        List.reverse_cons _ _
      have hlast : (y :: rest2).reverse.getLast? = some x ∨ True := Or.inr trivial
      rw [hrev, pathCost_append_last _ y x (by rw [List.getLast?_reverse]; rfl), ih]
      simp only [pathCost]
      cases hc2 : pathCost w (y :: rest2) with
      | none =>
        cases hw1 : w x y with
        | none => rfl
        | some c1 => rfl
      | some c2 =>
        rw [hsym y x]
        cases hw1 : w x y with
        | none => rfl
        | some c1 => simp [add_comm]

/-- Membership in the insertion enumeration: the results of inserting `a`
into `l` are exactly the splittings of `l` around a new `a`. -/
theorem mem_inserts {α : Type} {a : α} :
    ∀ {l q : List α}, q ∈ inserts a l ↔ ∃ l1 l2, l = l1 ++ l2 ∧ q = l1 ++ a :: l2 := by
  intro l
  induction l with
  | nil =>
    intro q
    simp only [inserts, List.mem_singleton]
    constructor
    · rintro rfl; exact ⟨[], [], rfl, rfl⟩
    · rintro ⟨l1, l2, h1, h2⟩
      rcases List.append_eq_nil.mp h1.symm with ⟨rfl, rfl⟩
      exact h2
  | cons b l ih =>
    intro q
    simp only [inserts, List.mem_cons, List.mem_map]
    constructor
    · rintro (rfl | ⟨q2, hq2, rfl⟩)
      · exact ⟨[], b :: l, rfl, rfl⟩
      · rcases ih.mp hq2 with ⟨l1, l2, rfl, rfl⟩
        exact ⟨b :: l1, l2, rfl, rfl⟩
    · rintro ⟨l1, l2, h1, rfl⟩
      cases l1 with
      | nil =>
        simp only [List.nil_append] at h1
        rw [← h1]
        exact Or.inl rfl
      | cons c l1t =>
        simp only [List.cons_append, List.cons.injEq] at h1
        rcases h1 with ⟨rfl, h1⟩
        exact Or.inr ⟨l1t ++ a :: l2, ih.mpr ⟨l1t, l2, h1, rfl⟩, rfl⟩

/-- An insertion result is a permutation of the element consed on. -/
theorem perm_of_mem_inserts {α : Type} {a : α} {l q : List α}
    (h : q ∈ inserts a l) : q.Perm (a :: l) := by
  rcases mem_inserts.mp h with ⟨l1, l2, rfl, rfl⟩
  exact List.perm_middle.trans (List.Perm.refl _)

/-- Membership in the structural permutation enumeration is exactly
permutation equivalence. -/
theorem mem_perms {α : Type} : ∀ {l q : List α}, q ∈ perms l ↔ q.Perm l := by
  intro l
  induction l with
  | nil =>
    intro q
    simp only [perms, List.mem_singleton]
    constructor
    · rintro rfl; exact List.Perm.refl _
    · intro h; exact List.Perm.eq_nil h
  | cons a l ih =>
    intro q
    simp only [perms, List.mem_flatMap]
    constructor
    · rintro ⟨p, hp, hq⟩
      exact (perm_of_mem_inserts hq).trans ((ih.mp hp).cons a)
    · intro h
      have ha : a ∈ q := h.mem_iff.mpr (List.mem_cons_self _ _)
      rcases List.append_of_mem ha with ⟨q1, q2, rfl⟩
      refine ⟨q1 ++ q2, ih.mpr ?_, mem_inserts.mpr ⟨q1, q2, rfl, rfl⟩⟩
      have hmid : (q1 ++ a :: q2).Perm (a :: (q1 ++ q2)) := List.perm_middle
      exact (hmid.symm.trans h).cons_inv

/-- Membership in the candidate-path enumeration. -/
theorem mem_pathsBetween {ns : List String} {a b : String} {q : List String} :
    q ∈ pathsBetween ns a b ↔
      (∃ s, s.Sublist ns ∧ q.Perm s) ∧ q.head? = some a ∧ q.getLast? = some b := by
  simp only [pathsBetween, List.mem_filter, List.mem_flatMap, List.mem_sublists,
    mem_perms, Bool.and_eq_true, decide_eq_true_eq]

/-- With a symmetric weight lookup, the shortest-path table is symmetric. -/
theorem spdist_symm {α : Type} [LinearOrderedAddCommMonoid α]
    {w : String → String → Option α} (hsym : ∀ x y, w x y = w y x)
    (ns : List String) (a b : String) :
    spdist w ns a b = spdist w ns b a := by
  have key : ∀ (u v : String) (x : α),
      (∃ q ∈ pathsBetween ns u v, pathCost w q = some x) →
      ∃ q ∈ pathsBetween ns v u, pathCost w q = some x := by
    rintro u v x ⟨q, hq, hcost⟩
    refine ⟨q.reverse, ?_, ?_⟩
    · rw [mem_pathsBetween] at hq ⊢
      rcases hq with ⟨⟨s, hs, hperm⟩, hhead, hlast⟩
      refine ⟨⟨s, hs, (q.reverse_perm).trans hperm⟩, ?_, ?_⟩
      · rw [List.head?_reverse]; exact hlast
      · rw [List.getLast?_reverse]; exact hhead
    · rw [pathCost_reverse hsym]; exact hcost
  apply listMin_congr
  intro x
  simp only [List.mem_filterMap]
  exact ⟨key a b x, key b a x⟩

/-- With non-negative weights, the shortest-path distance from a node of
the graph to itself is zero. -/
theorem spdist_refl {α : Type} [LinearOrderedAddCommMonoid α]
    {w : String → String → Option α}
    (hw : ∀ x y c, w x y = some c → 0 ≤ c)
    (ns : List String) (a : String) (ha : a ∈ ns) :
    spdist w ns a a = some 0 := by
  have hmem : (0 : α) ∈ (pathsBetween ns a a).filterMap (pathCost w) := by
    rw [List.mem_filterMap]
    refine ⟨[a], ?_, rfl⟩
    rw [mem_pathsBetween]
    exact ⟨⟨[a], List.singleton_sublist.mpr ha, List.Perm.refl _⟩, rfl, rfl⟩
  have hne : (pathsBetween ns a a).filterMap (pathCost w) ≠ [] := by
    intro hnil
    rw [hnil] at hmem
    simp at hmem
  rcases listMin_some hne with ⟨m, hm⟩
  have hm0 : m = 0 := by
    refine le_antisymm (listMin_le hm 0 hmem) ?_
    rcases List.mem_filterMap.mp (listMin_mem hm) with ⟨q, _, hq⟩
    exact pathCost_nonneg hw q m hq
  rw [spdist, hm, hm0]

/-- `find?` only depends on the pointwise behaviour of its predicate. -/
theorem find?_congr {α : Type} (p q : α → Bool) (h : ∀ x, p x = q x) :
    ∀ l : List α, l.find? p = l.find? q := by
  intro l
  induction l with
  | nil => rfl
  | cons x xs ih =>
    simp only [List.find?, h x]
    cases q x with
    | false => exact ih
    | true => rfl

/-- The undirected weight lookup is symmetric by construction. -/
theorem edgeWeight_symm {α : Type} (es : List (String × String × α))
    (a b : String) : edgeWeight es a b = edgeWeight es b a := by
  unfold edgeWeight
  rw [find?_congr _ _ (fun e => Bool.or_comm _ _) es]

/-- Every weight looked up in a successfully loaded graph is a Euclidean
distance, hence non-negative. -/
theorem edgeWeight_nonneg_of_load {data : List ConnRecord} {es : List NavEdge}
    (h : load_nav_graph euDist data = .ok es) :
    ∀ x y c, edgeWeight es x y = some c → 0 ≤ c := by
  intro x y c hxy
  unfold edgeWeight at hxy
  cases hf : es.find? (fun e => (e.1 == x && e.2.1 == y) || (e.1 == y && e.2.1 == x)) with
  | none => rw [hf] at hxy; cases hxy
  | some e =>
    rw [hf] at hxy
    simp only [Option.map] at hxy
    injection hxy with hc
    rcases load_nav_graph_sound h e (List.mem_of_find?_eq_some hf) with
      ⟨i, j, ri, rj, _, _, _, _, _, _, hedge⟩
    rw [← hc, hedge]
    exact Real.sqrt_nonneg _

/-- C7: for every environment graph built by the loader, the all-pairs
shortest-path distance table is symmetric — `distance(a, b) =
distance(b, a)` for every pair (in particular every pair of mutually
reachable nodes) — and `distance(a, a) = 0` for every node `a` of the
graph. -/
theorem distance_table_symm_zero {data : List ConnRecord} {es : List NavEdge}
    (hload : load_nav_graph euDist data = .ok es) :
    (∀ a ∈ nodesOf es, spdist (edgeWeight es) (nodesOf es) a a = some 0) ∧
    (∀ a b, spdist (edgeWeight es) (nodesOf es) a b =
      spdist (edgeWeight es) (nodesOf es) b a) := by
  constructor
  · intro a ha
    exact spdist_refl (edgeWeight_nonneg_of_load hload) _ a ha
  · intro a b
    exact spdist_symm (fun x y => edgeWeight_symm es x y) _ a b

/-- C7 witness: the loaded two-viewpoint environment `A - B`. -/
theorem distance_table_symm_zero_witness :
    load_nav_graph euDist [connA, connB] =
      .ok [("A", "B", euDist connA connB), ("B", "A", euDist connB connA)] ∧
    ((∀ a ∈ nodesOf [("A", "B", euDist connA connB), ("B", "A", euDist connB connA)],
        spdist (edgeWeight [("A", "B", euDist connA connB), ("B", "A", euDist connB connA)])
          (nodesOf [("A", "B", euDist connA connB), ("B", "A", euDist connB connA)])
          a a = some 0) ∧
      (∀ a b,
        spdist (edgeWeight [("A", "B", euDist connA connB), ("B", "A", euDist connB connA)])
          (nodesOf [("A", "B", euDist connA connB), ("B", "A", euDist connB connA)]) a b =
        spdist (edgeWeight [("A", "B", euDist connA connB), ("B", "A", euDist connB connA)])
          (nodesOf [("A", "B", euDist connA connB), ("B", "A", euDist connB connA)]) b a)) :=
  ⟨rfl, @distance_table_symm_zero [connA, connB]
    [("A", "B", euDist connA connB), ("B", "A", euDist connB connA)] rfl⟩

set_option maxRecDepth 10000

/-- The concrete table `sqDist` used by the scorer fixtures is exactly the
all-pairs shortest-path table of the unit square graph: the distance
values of the counterexample evaluations are genuine Dijkstra distances. -/
theorem sqDist_matches_spdist :
    ∀ a ∈ ["A", "B", "C", "D"], ∀ b ∈ ["A", "B", "C", "D"],
      spdist sqW ["A", "B", "C", "D"] a b = some (sqDist a b) := by decide

/-- The SPL `ZeroDivisionError` path of `_score_item` is modelled, not
collapsed: a stationary ground-truth path `["A", "A"]` with an exactly
matching trajectory passes every earlier check yet makes
`max(d(start, goal), trajectory length) = max 0 0 = 0`, so the scorer
raises `ZeroDivisionError` (as the program does at lines 84-86) instead of
returning metrics, and a run scoring this entry produces no summary. -/
theorem stationary_path_zero_division :
    scoreItem stationaryEval (5, 0) [mkT "A", mkT "A"] = .error .zeroDivision ∧
    (score stationaryEval [⟨(5, 0), [mkT "A", mkT "A"]⟩, ⟨(5, 1), [mkT "A", mkT "A"]⟩,
      ⟨(5, 2), [mkT "A", mkT "A"]⟩] "out.json").isOk = false := by
  refine ⟨by decide, by decide⟩
